import Mathlib

/-!
# Multi-word search and ranking of `db/db.go`

A shallow embedding of the search engine of `src/db/db.go` (the tokenizer
`splitSpacesOrQuoted`, the title signals of `NewNoteRecord`, the merge and
ranking of `multiWordQuery`, the helpers `RemoveTagHashes` and `escape`, the
tag fragment of `QueryNotesByTextAndTags` and the entry point
`QueryNotesByText`), followed by theorems about it.

Modelling conventions.

* A Go `string` is a `List Char` (`Str`).  The embedded functions only look for
  substrings, compare positions of substrings and match a regular expression
  over runes; on valid UTF-8 text these agree on bytes and on code points.
* `strings.ToLower` is library code driven by the Unicode case tables.  It is a
  parameter `toLower` of every definition that calls it; the concrete
  `asciiToLower` agrees with it on ASCII text and is used for evaluation.
* `sort.Slice` is library code (pattern-defeating quicksort, not stable).  It
  is a parameter `sortSlice` of `multiWordQuery`.  General theorems assume only
  what the library promises for the comparison used here (`SortSliceOK`): the
  result is a rearrangement of the input in which no element is less than an
  element before it.  The concrete `insertionSortSlice` is the insertion sort
  that the library runs on short slices, and is used for evaluation.
* A Go `map` read of a missing key gives the zero value, so `map[string]bool`
  and `map[string]int` are total functions with default `false` and `0`.
* A Go result pair `([]Note, error)` is a pair `List Note × Option ε`, the
  `nil` slice being `[]` and the `nil` error being `none`.
* The store `litedb.Query` is a parameter `query`, from the statement and the
  values bound to its parameters to a result pair.
* A run-time panic is the result `none` of a function into `Option`.
-/

namespace AlfredObsidian

/-- A Go string, as its sequence of characters. -/
abbrev Str := List Char

/-! ## Library functions of package `strings` -/

/-- The search of `strings.Index(s, substr)` from offset `n` on: the first
position at which `substr` starts, or `-1`. -/
def indexFrom (substr : Str) : Str → Nat → Int
  | [], n => if substr = [] then (n : Int) else -1
  | c :: cs, n => if substr.isPrefixOf (c :: cs) then (n : Int) else indexFrom substr cs (n + 1)

/-- Library function `strings.Index(s, substr)`. -/
def stringsIndex (s substr : Str) : Int := indexFrom substr s 0

/-- Library function `strings.Contains(s, substr)`, which is
`Index(s, substr) >= 0`. -/
def stringsContains (s substr : Str) : Bool := decide (0 ≤ stringsIndex s substr)

/-- Library function `strings.Split(s, " ")`: the pieces of `s` between single spaces (one more
piece than there are spaces, empty pieces included). -/
def stringsSplitSpace : Str → List Str
  | [] => [[]]
  | c :: cs =>
    if c = ' ' then [] :: stringsSplitSpace cs
    else
      match stringsSplitSpace cs with
      | [] => [[c]]
      | w :: ws => (c :: w) :: ws

/-- Lower-casing of ASCII letters, as `strings.ToLower` does on ASCII text;
used where a concrete lower-casing is evaluated. -/
def asciiToLower (s : Str) : Str := s.map Char.toLower

/-! ## Tokenizer: `splitSpacesOrQuoted` -/

/-- The class `\s` of Go regular expressions: tab, newline, form feed,
carriage return, space. -/
def isSpace (c : Char) : Bool :=
  c == '\t' || c == '\n' || c == '\x0c' || c == '\r' || c == ' '

/-- The negated class `[^\s"']`. -/
def isWordChar (c : Char) : Bool :=
  !(isSpace c || c == '"' || c == '\'')

/-- One match of the regular expression, as `FindAllStringSubmatch` reports it:
the whole match `v0` and the two capture groups, a group that took no part in
the match being the empty string. -/
structure Submatch where
  v0 : Str
  v1 : Str
  v2 : Str
deriving DecidableEq, Repr

/-- First alternative `([^\s"']+)` tried at the head of `s`: the longest
non-empty run of word characters (the repetition is greedy and nothing
follows it). -/
def matchRun (s : Str) : Option Submatch :=
  let run := s.takeWhile isWordChar
  if run = [] then none else some ⟨run, run, []⟩

/-- Second alternative `"([^"]*)"` tried at the head of `s`: a double quote,
the run of characters up to the next double quote, and that double quote.
Giving back characters of the greedy run cannot help, since none of them is a
double quote. -/
def matchQuoted : Str → Option Submatch
  | [] => none
  | c :: cs =>
    if c = '"' then
      let inner := cs.takeWhile (fun d => d != '"')
      match cs.dropWhile (fun d => d != '"') with
      | [] => none
      | _ :: _ => some ⟨'"' :: inner ++ ['"'], [], inner⟩
    else none

/-- The regular expression `([^\s"']+)|"([^"]*)"` tried at the head of `s`;
the first alternative is preferred (leftmost-first matching). -/
def matchHere (s : Str) : Option Submatch :=
  match matchRun s with
  | some m => some m
  | none => matchQuoted s

/-- The scan of `FindAllStringSubmatch(s, -1)`: go left to right; where the expression
matches, report the match and resume right after it, elsewhere move on by one
character.  `skip` counts the characters of the last match still to be passed
over.  (The expression matches no empty string, so the library's rule about
empty matches never applies.) -/
def findAllFrom : Nat → Str → List Submatch
  | _, [] => []
  | skip + 1, _ :: cs => findAllFrom skip cs
  | 0, c :: cs =>
    match matchHere (c :: cs) with
    | some m => m :: findAllFrom (m.v0.length - 1) cs
    | none => findAllFrom 0 cs

/-- Library function `regexp.FindAllStringSubmatch` for the tokenizer's
expression. -/
def findAllStringSubmatch (s : Str) : List Submatch := findAllFrom 0 s

/-- The body of the loop of `splitSpacesOrQuoted`: `match := v[1]`, replaced by
`v[2]` when it is the empty string. -/
def pickGroup (v : Submatch) : Str := if v.v1 = [] then v.v2 else v.v1

/-- Function `splitSpacesOrQuoted` of `db.go`. -/
def splitSpacesOrQuoted (s : Str) : List Str :=
  (findAllStringSubmatch s).map pickGroup

/-! ## Candidate records -/

/-- A row of the store, `map[string]string`, as an association list. -/
abbrev Note := List (Str × Str)

/-- The map read `note[key]`: the value stored under `key`, or the empty string. -/
def noteField (note : Note) (key : Str) : Str := (note.lookup key).getD []

/-- Constant `TitleKey`. -/
def TitleKey : Str := "title".toList

/-- Constant `NoteIDKey`. -/
def NoteIDKey : Str := "path".toList

/-- The identifier of a row, `note[NoteIDKey]`. -/
def noteId (note : Note) : Str := noteField note NoteIDKey

/-- The lower-cased title of a row, `strings.ToLower(note[TitleKey])`. -/
def noteTitle (toLower : Str → Str) (note : Note) : Str := toLower (noteField note TitleKey)

/-- The loop of `containsOrderedWords`, `prev` being the position of the
previous word. -/
def containsOrderedWordsFrom (text : Str) : Int → List Str → Bool
  | _, [] => true
  | prev, w :: ws =>
    let i := stringsIndex text w
    if i = -1 ∨ i < prev then false else containsOrderedWordsFrom text i ws

/-- Function `containsOrderedWords` of `db.go`. -/
def containsOrderedWords (text : Str) (words : List Str) : Bool :=
  containsOrderedWordsFrom text 0 words

/-- Function `containsWords` of `db.go`. -/
def containsWords (text : Str) : List Str → Bool
  | [] => true
  | w :: ws => if !stringsContains text w then false else containsWords text ws

/-- Type `noteRecord` of `db.go`. -/
structure noteRecord where
  note : Note
  contains : Bool
  containsOrderedWords : Bool
  containsWords : Bool
  originalIndex : Nat
deriving DecidableEq, Repr

/-- Function `NewNoteRecord` of `db.go`. -/
def NewNoteRecord (toLower : Str → Str) (i : Nat) (note : Note) (lowerText : Str) : noteRecord :=
  let title := toLower (noteField note TitleKey)
  let words := stringsSplitSpace lowerText
  { originalIndex := i
    note := note
    contains := stringsContains title lowerText
    containsOrderedWords := containsOrderedWords title words
    containsWords := containsWords title words }

/-- The comparison that `multiWordQuery` hands to `sort.Slice`, on the two
records found at the indices it is called with. -/
def recordLess (iRecord jRecord : noteRecord) : Bool :=
  if iRecord.contains != jRecord.contains then iRecord.contains
  else if iRecord.containsOrderedWords != jRecord.containsOrderedWords then
    iRecord.containsOrderedWords
  else if iRecord.containsWords != jRecord.containsWords then iRecord.containsWords
  else decide (iRecord.originalIndex < jRecord.originalIndex)

/-! ## Sorting -/

/-- The inner loop of the library's insertion sort: the new element `x`, put
right of the sorted part, is swapped leftwards while it is less than its left
neighbour.  The sorted part is held reversed (nearest neighbour first). -/
def sinkLeft {α : Type} (less : α → α → Bool) (x : α) : List α → List α
  | [] => [x]
  | y :: ys => if less x y then y :: sinkLeft less x ys else x :: y :: ys

/-- The insertion sort that `sort.Slice` runs on a short slice (at most twelve
elements in the pattern-defeating quicksort). -/
def insertionSortSlice {α : Type} (less : α → α → Bool) (l : List α) : List α :=
  (l.foldl (fun sortedRev x => sinkLeft less x sortedRev) []).reverse

/-- What `sort.Slice` promises for the comparison `recordLess`: the result is a
rearrangement of the input, and no element of it is less than an element
before it. -/
def SortSliceOK (sortSlice : (noteRecord → noteRecord → Bool) → List noteRecord → List noteRecord) :
    Prop :=
  ∀ l, (sortSlice recordLess l).Perm l ∧
    (sortSlice recordLess l).Pairwise (fun a b => recordLess b a = false)

/-! ## The merge: `multiWordQuery` -/

/-- Body of the loop over the phrase lookup's rows (lines 363-369): the state is
`records` and the set `fullMatch`. -/
def phraseStep (toLower : Str → Str) (lowerText : Str)
    (st : List noteRecord × (Str → Bool)) (row : Nat × Note) : List noteRecord × (Str → Bool) :=
  let noteId := noteField row.2 NoteIDKey
  let record := { NewNoteRecord toLower row.1 row.2 lowerText with originalIndex := row.1 }
  (st.1 ++ [record], fun k => if k = noteId then true else st.2 k)

/-- Body of the loop over one term lookup's rows (lines 379-387): the state is
`multiRecords` and the map `count`. -/
def termRowStep (toLower : Str → Str) (lowerText : Str) (fullMatch : Str → Bool)
    (st : List noteRecord × (Str → Nat)) (row : Nat × Note) : List noteRecord × (Str → Nat) :=
  let noteId := noteField row.2 NoteIDKey
  let multiRecords :=
    if st.2 noteId == 0 && !fullMatch noteId then
      st.1 ++ [{ NewNoteRecord toLower row.1 row.2 lowerText with originalIndex := row.1 }]
    else st.1
  (multiRecords, fun k => if k = noteId then st.2 k + 1 else st.2 k)

/-- The loop over the terms (lines 373-388): one lookup per term, in term
order, stopping at the first lookup that fails. -/
def termLoop {ε : Type} (toLower : Str → Str) (lowerText : Str) (fullMatch : Str → Bool)
    (wordQuery : Str → List Note × Option ε) :
    List Str → List noteRecord × (Str → Nat) → (List noteRecord × (Str → Nat)) × Option ε
  | [], st => (st, none)
  | word :: rest, st =>
    match wordQuery word with
    | (_, some err) => (st, some err)
    | (notes, none) =>
      termLoop toLower lowerText fullMatch wordQuery rest
        (notes.enum.foldl (termRowStep toLower lowerText fullMatch) st)

/-- Body of the loop that retains pending records (lines 390-394). -/
def retainStep (count : Str → Nat) (nWords : Nat) (records : List noteRecord)
    (record : noteRecord) : List noteRecord :=
  if count (noteField record.note NoteIDKey) == nWords || record.containsWords then
    records ++ [record]
  else records

/-- Lines 354-394 of `multiWordQuery`: the working sequence `records` as it is
handed to the sort, or the error of the lookup that failed. -/
def collectRecords {ε : Type} (toLower : Str → Str) (text : Str)
    (wordQuery : Str → List Note × Option ε) : List noteRecord × Option ε :=
  let lowerText := toLower text
  let words := splitSpacesOrQuoted lowerText
  match wordQuery lowerText with
  | (_, some err) => ([], some err)
  | (notes, none) =>
    let st := notes.enum.foldl (phraseStep toLower lowerText) ([], fun _ => false)
    match termLoop toLower lowerText st.2 wordQuery words ([], fun _ => 0) with
    | (_, some err) => ([], some err)
    | (pending, none) =>
      (pending.1.foldl (retainStep pending.2 words.length) st.1, none)

/-- Function `multiWordQuery` of `db.go`. -/
def multiWordQuery {ε : Type} (toLower : Str → Str)
    (sortSlice : (noteRecord → noteRecord → Bool) → List noteRecord → List noteRecord)
    (text : Str) (wordQuery : Str → List Note × Option ε) : List Note × Option ε :=
  match collectRecords toLower text wordQuery with
  | (_, some err) => ([], some err)
  | (records, none) => ((sortSlice recordLess records).map (fun r => r.note), none)

/-- The set `fullMatch` after the loop over the phrase lookup's rows. -/
def fullMatchOf (toLower : Str → Str) (lowerText : Str) (notes : List Note) : Str → Bool :=
  (notes.enum.foldl (phraseStep toLower lowerText) ([], fun _ => false)).2

/-- The rows of all term lookups, each with its position in its own batch, in
the order in which the loop over the terms meets them. -/
def termRows {ε : Type} (wordQuery : Str → List Note × Option ε) (words : List Str) :
    List (Nat × Note) :=
  words.flatMap (fun w => (wordQuery w).1.enum)

/-- The state (`multiRecords`, `count`) after the loop over the terms, when no
lookup fails. -/
def pendingOf {ε : Type} (toLower : Str → Str) (lowerText : Str) (notes : List Note)
    (wordQuery : Str → List Note × Option ε) (words : List Str) :
    List noteRecord × (Str → Nat) :=
  (termRows wordQuery words).foldl
    (termRowStep toLower lowerText (fullMatchOf toLower lowerText notes)) ([], fun _ => 0)

/-- The first three levels of the comparison, on the title signals of two
rows: `a` ranks strictly above `b` by the full-phrase signal, else by the
in-order signal, else by the any-order signal. -/
def signalsAbove (toLower : Str → Str) (lowerText : Str) (a b : Note) : Bool :=
  let ra := NewNoteRecord toLower 0 a lowerText
  let rb := NewNoteRecord toLower 0 b lowerText
  if ra.contains != rb.contains then ra.contains
  else if ra.containsOrderedWords != rb.containsOrderedWords then ra.containsOrderedWords
  else if ra.containsWords != rb.containsWords then ra.containsWords
  else false

/-- A row with the given identifier and title. -/
def mkNote (path title : String) : Note := [(NoteIDKey, path.toList), (TitleKey, title.toList)]

/-- A note found by the phrase lookup through its body only. -/
def noteBody : Note := mkNote "a.md" "x"

/-- A note whose title holds both words of `foo bar`, apart. -/
def noteWords : Note := mkNote "b.md" "foo and bar"

/-- A store for the query `foo bar`: the phrase lookup finds `noteBody` (its body
holds the phrase), each term lookup finds `noteWords` by its title and then
`noteBody` by its body. -/
def storeFooBar (q : Str) : List Note × Option String :=
  if q = "foo bar".toList then ([noteBody], none)
  else if q = "foo".toList ∨ q = "bar".toList then ([noteWords, noteBody], none)
  else ([], none)

/-- A note whose title holds the phrase `foo bar`. -/
def notePhrase : Note := mkNote "p.md" "My Foo Bar"

/-- A note whose title holds both words of `foo bar`, in the other order. -/
def noteSwap : Note := mkNote "s.md" "bar then foo"

/-- A second store for the query `foo bar`: the phrase lookup finds `noteBody`
and `notePhrase`, each term lookup finds all four notes. -/
def storeRanked (q : Str) : List Note × Option String :=
  if q = "foo bar".toList then ([noteBody, notePhrase], none)
  else if q = "foo".toList ∨ q = "bar".toList then
    ([notePhrase, noteSwap, noteWords, noteBody], none)
  else ([], none)

/-- The store `storeFooBar` with a failing lookup of the term `bar`. -/
def storeBarFails (q : Str) : List Note × Option String :=
  if q = "bar".toList then ([noteWords], some "disk I/O error") else storeFooBar q

/-! ## Tag markers, escaping and the query entry points -/

/-- Function `RemoveTagHashes` of `db.go`.  The result `none` is the run-time
panic of the slice expression `tag[1:]` on the empty string.  The slice drops
the first byte; the model drops the first character, which is the same thing
when that character is a one-byte one such as the marker `#`. -/
def RemoveTagHashes : Str → Option Str
  | [] => none
  | _ :: tag => if tag.getLast? = some '#' then some tag.dropLast else some tag

/-- Function `escape` of `db.go`: `strings.Replace(s, "'", "''", -1)`, every
single quote replaced by two, left to right. -/
def escape : Str → Str
  | [] => []
  | c :: cs => if c = '\'' then '\'' :: '\'' :: escape cs else c :: escape cs

/-- Library function `strings.Join`. -/
def stringsJoin (sep : Str) : List Str → Str
  | [] => []
  | [s] => s
  | s :: t :: rest => s ++ sep ++ stringsJoin sep (t :: rest)

/-- The sub-query that `QueryNotesByTextAndTags` formats for one bare tag name
with `fmt.Sprintf` (line 297). -/
def selectStatement (name : Str) : Str :=
  "SELECT ZUNIQUEIDENTIFIER FROM joined WHERE utflower(TAG_TITLE) = utflower('".toList
    ++ name ++ "')".toList

/-- The fragment `tagIntersection` of `QueryNotesByTextAndTags` (lines 295-300);
`none` when `RemoveTagHashes` panics on one of the tags. -/
def tagIntersection (tags : List Str) : Option Str :=
  (tags.mapM RemoveTagHashes).map
    (fun names => stringsJoin "\nINTERSECT\n".toList (names.map selectStatement))

/-- Type `TagQueryArg` of `db.go`. -/
structure TagQueryArg where
  Text : Str
  TagIntersection : Str
deriving DecidableEq, Repr

/-- The template data that `queryNotesByTextAndTagConjunction` builds (lines
273-276): the text is escaped, the fragment is taken as it is. -/
def newTagQueryArg (text fragment : Str) : TagQueryArg :=
  { Text := escape text, TagIntersection := fragment }

/-- Constant `NOTES_BY_QUERY`: the statement with the bound parameter `$1`. -/
def NOTES_BY_QUERY : Str :=
  ("\n" ++
    "\t\tSELECT\n" ++
    "\t\t\tnote.path, \n" ++
    "\t\t\tnote.title,\n" ++
    "\t\t\tCAST(last_modified AS TEXT) as last_modified,\n" ++
    "\t\t\tGROUP_CONCAT(ntag.tag_name) AS tags\n" ++
    "\t\tFROM\n" ++
    "\t\t\t\tnote\n" ++
    "\t\tLEFT JOIN\n" ++
    "\t\t\t\tnote_tag ntag ON note.path = nTag.note_path\n" ++
    "\t\tWHERE\n" ++
    "\t\t\tnote.title LIKE '%'||$1||'%' OR\n" ++
    "\t\t\tnote.content_lower LIKE '%'||$1||'%'\n" ++
    "\t\tGROUP BY\n" ++
    "\t\t\t\tnote.path,\n" ++
    "\t\t\t\tnote.title\n" ++
    "\t\tORDER BY\n" ++
    "\t\t\t\tCASE WHEN note.title LIKE '%'||$1||'%' THEN 0 ELSE 1 END,\n" ++
    "\t\t\t\tnote.last_modified DESC\n" ++
    "\t\tLIMIT 200;\n" ++
    "").toList

/-- The closure `wordQuery` of `QueryNotesByText` (lines 310-314); `query` is
`litedb.Query`, taking the statement and the values bound to its parameters. -/
def textWordQuery {ε : Type} (toLower : Str → Str)
    (query : Str → List Str → List Note × Option ε) (word : Str) : List Note × Option ε :=
  query NOTES_BY_QUERY [escape (toLower word)]

/-- Function `QueryNotesByText` of `db.go`. -/
def QueryNotesByText {ε : Type} (toLower : Str → Str)
    (sortSlice : (noteRecord → noteRecord → Bool) → List noteRecord → List noteRecord)
    (query : Str → List Str → List Note × Option ε) (text : Str) : List Note × Option ε :=
  multiWordQuery toLower sortSlice text (textWordQuery toLower query)

/-- A store that answers every lookup with one row whose identifier and title
are the value it was handed for the parameter `$1`. -/
def echoStore (_sql : Str) (args : List Str) : List Note × Option String :=
  (args.map (fun a => [(NoteIDKey, a), (TitleKey, a)]), none)

/-! ## Definitions that follow the words of the specification -/

/-- The word `w` occurs in `text` starting at position `p`. -/
def occursAt (text w : Str) (p : Nat) : Prop :=
  p ≤ text.length ∧ w.isPrefixOf (text.drop p) = true

/-- The first occurrence of `w` in `text` starts at position `p`. -/
def firstOccursAt (text w : Str) (p : Nat) : Prop :=
  occursAt text w p ∧ ∀ q, q < p → ¬ occursAt text w q

/-- The lengths of the runs of single quotes of `s`: the pieces of `s` between
its other characters, which are runs of single quotes, some of them empty. -/
def quoteRunLengths (s : Str) : List Nat :=
  (s.splitOnP (fun c => c != '\'')).map List.length

/-- Every doubled single quote of `s` collapsed back to one, left to right. -/
def collapseQuotes : Str → Str
  | '\'' :: '\'' :: cs => '\'' :: collapseQuotes cs
  | c :: cs => c :: collapseQuotes cs
  | [] => []

/-- The key on which the comparison is claimed to be lexicographic: the three
signals negated (so that `true` comes first), then the batch position. -/
def sortKey (r : noteRecord) : Lex (Bool × Lex (Bool × Lex (Bool × Nat))) :=
  toLex (!r.contains, toLex (!r.containsOrderedWords, toLex (!r.containsWords, r.originalIndex)))

/-- A note whose title holds the words `night owl project`. -/
def noteNightOwl : Note := mkNote "n.md" "Night Owl Project"

/-- A note found by its body only, more recent than `noteBody`. -/
def noteOther : Note := mkNote "o.md" "y"

/-- A third store for the query `foo bar`: the phrase lookup finds `noteBody`,
each term lookup finds `noteOther` and then `noteBody`, all by their bodies. -/
def storeTie (q : Str) : List Note × Option String :=
  if q = "foo bar".toList then ([noteBody], none)
  else if q = "foo".toList ∨ q = "bar".toList then ([noteOther, noteBody], none)
  else ([], none)

/-- A store that answers the empty text, which every note matches, with four
rows in the order of a store (most recent first), and any other lookup as
`storeRanked` does. -/
def storeAll (q : Str) : List Note × Option String :=
  if q = [] then ([noteWords, noteBody, noteSwap, notePhrase], none) else storeRanked q

/-- The maximal runs of non-whitespace characters of `s`, left to right: the
pieces of `s` between whitespace characters, the empty pieces left out.  This
follows the words of the specification, not the code. -/
def maximalRuns (s : Str) : List Str :=
  (s.splitOnP (fun c => isSpace c)).filter (fun r => r ≠ [])

/-! ## Theorems: the tokenizer -/

theorem findAllFrom_skip (k : Nat) (s : Str) : findAllFrom k s = findAllFrom 0 (s.drop k) := by
  induction s generalizing k with
  | nil => cases k <;> simp [findAllFrom]
  | cons c cs ih =>
    cases k with
    | zero => simp
    | succ k => simp [findAllFrom, ih k]

theorem findAllFrom_nil (k : Nat) : findAllFrom k [] = [] := by
  cases k <;> rfl

theorem findAllFrom_none (c : Char) (cs : Str) (h : matchHere (c :: cs) = none) :
    findAllFrom 0 (c :: cs) = findAllFrom 0 cs := by
  simp [findAllFrom, h]

theorem findAllFrom_some (c : Char) (cs : Str) (m : Submatch) (h : matchHere (c :: cs) = some m) :
    findAllFrom 0 (c :: cs) = m :: findAllFrom 0 (cs.drop (m.v0.length - 1)) := by
  simp only [findAllFrom, h]
  rw [findAllFrom_skip]

theorem matchHere_not_word (c : Char) (cs : Str) (hw : isWordChar c = false) (hq : c ≠ '"') :
    matchHere (c :: cs) = none := by
  simp [matchHere, matchRun, matchQuoted, List.takeWhile_cons, hw, hq]

theorem matchHere_word (c : Char) (cs : Str) (hw : isWordChar c = true) :
    matchHere (c :: cs) =
      some ⟨c :: cs.takeWhile isWordChar, c :: cs.takeWhile isWordChar, []⟩ := by
  simp [matchHere, matchRun, List.takeWhile_cons, hw]

theorem matchHere_quote (cs : Str) :
    matchHere ('"' :: cs) =
      match cs.dropWhile (fun d => d != '"') with
      | [] => none
      | _ :: _ => some ⟨'"' :: cs.takeWhile (fun d => d != '"') ++ ['"'], [],
          cs.takeWhile (fun d => d != '"')⟩ := by
  have hw : isWordChar '"' = false := by decide
  simp [matchHere, matchRun, matchQuoted, List.takeWhile_cons, hw]

theorem drop_length_takeWhile (p : Char → Bool) (s : Str) :
    s.drop (s.takeWhile p).length = s.dropWhile p := by
  induction s with
  | nil => rfl
  | cons c cs ih =>
    by_cases h : p c = true
    · simp [List.takeWhile_cons, List.dropWhile_cons, h, ih]
    · simp [List.takeWhile_cons, List.dropWhile_cons, h]

theorem findAllFrom_word (c : Char) (cs : Str) (hw : isWordChar c = true) :
    findAllFrom 0 (c :: cs) =
      ⟨c :: cs.takeWhile isWordChar, c :: cs.takeWhile isWordChar, []⟩ ::
        findAllFrom 0 (cs.dropWhile isWordChar) := by
  rw [findAllFrom_some c cs _ (matchHere_word c cs hw)]
  simp [drop_length_takeWhile]

theorem takeWhile_all (p : Char → Bool) (s : Str) (h : ∀ c ∈ s, p c = true) :
    s.takeWhile p = s := by
  induction s with
  | nil => rfl
  | cons c cs ih =>
    have hc : p c = true := h c (List.mem_cons_self _ _)
    simp [List.takeWhile_cons, hc, ih (fun d hd => h d (List.mem_cons_of_mem _ hd))]

theorem dropWhile_all (p : Char → Bool) (s : Str) (h : ∀ c ∈ s, p c = true) :
    s.dropWhile p = [] := by
  induction s with
  | nil => rfl
  | cons c cs ih =>
    have hc : p c = true := h c (List.mem_cons_self _ _)
    simp [List.dropWhile_cons, hc, ih (fun d hd => h d (List.mem_cons_of_mem _ hd))]

theorem takeWhile_stop (p : Char → Bool) (s t : Str) (d : Char) (h : ∀ c ∈ s, p c = true)
    (hd : p d = false) : (s ++ d :: t).takeWhile p = s := by
  induction s with
  | nil => simp [List.takeWhile_cons, hd]
  | cons c cs ih =>
    have hc : p c = true := h c (List.mem_cons_self _ _)
    simp [List.takeWhile_cons, hc, ih (fun d hd => h d (List.mem_cons_of_mem _ hd))]

theorem dropWhile_stop (p : Char → Bool) (s t : Str) (d : Char) (h : ∀ c ∈ s, p c = true)
    (hd : p d = false) : (s ++ d :: t).dropWhile p = d :: t := by
  induction s with
  | nil => simp [List.dropWhile_cons, hd]
  | cons c cs ih =>
    have hc : p c = true := h c (List.mem_cons_self _ _)
    simp [List.dropWhile_cons, hc, ih (fun d hd => h d (List.mem_cons_of_mem _ hd))]

/-- A non-empty run of word characters, alone, is one match. -/
theorem findAllFrom_single_word (w : Str) (hne : w ≠ []) (hw : ∀ c ∈ w, isWordChar c = true) :
    findAllFrom 0 w = [⟨w, w, []⟩] := by
  cases w with
  | nil => exact absurd rfl hne
  | cons c cs =>
    have hc : isWordChar c = true := hw c (List.mem_cons_self _ _)
    have hcs : ∀ d ∈ cs, isWordChar d = true := fun d hd => hw d (List.mem_cons_of_mem _ hd)
    rw [findAllFrom_word c cs hc, takeWhile_all _ _ hcs, dropWhile_all _ _ hcs]
    simp [findAllFrom]

theorem dropWhile_head_false (p : Char → Bool) (s rest : Str) (x : Char)
    (h : s.dropWhile p = x :: rest) : p x = false := by
  induction s with
  | nil => simp at h
  | cons c cs ih =>
    by_cases hc : p c = true
    · rw [List.dropWhile_cons, if_pos hc] at h
      exact ih h
    · rw [List.dropWhile_cons, if_neg hc] at h
      cases h
      simpa using hc

theorem isWordChar_of_plain (c : Char) (hs : isSpace c = false) (hd : c ≠ '"') (hq : c ≠ '\'') :
    isWordChar c = true := by
  simp [isWordChar, hs, hd, hq]

theorem isWordChar_space (c : Char) (hs : isSpace c = true) : isWordChar c = false := by
  simp [isWordChar, hs]

theorem isSpace_ne_quote (c : Char) (hs : isSpace c = true) : c ≠ '"' := by
  intro h
  subst h
  exact absurd hs (by decide)

theorem pickGroup_matchHere_ne_nil (c : Char) (cs : Str) (m : Submatch)
    (hm : matchHere (c :: cs) = some m) (h : ¬ (['"', '"'] <:+: c :: cs)) : pickGroup m ≠ [] := by
  by_cases hw : isWordChar c = true
  · rw [matchHere_word c cs hw] at hm
    cases hm
    simp [pickGroup]
  · have hw2 : isWordChar c = false := by simpa using hw
    by_cases hq : c = '"'
    · subst hq
      rw [matchHere_quote] at hm
      cases cs with
      | nil => simp at hm
      | cons d ds =>
        by_cases hd : d = '"'
        · subst hd
          exact absurd (List.IsPrefix.isInfix (List.prefix_append ['"', '"'] ds)) h
        · have hd2 : (d != '"') = true := by simpa using hd
          rw [List.dropWhile_cons, if_pos hd2, List.takeWhile_cons, if_pos hd2] at hm
          split at hm
          · cases hm
          · cases hm
            simp [pickGroup]
    · rw [matchHere_not_word c cs hw2 hq] at hm
      cases hm

theorem pickGroup_findAllFrom_ne_nil (s : Str) (h : ¬ (['"', '"'] <:+: s)) :
    ∀ (k : Nat) (m : Submatch), m ∈ findAllFrom k s → pickGroup m ≠ [] := by
  induction s with
  | nil => intro k m hm; simp [findAllFrom_nil] at hm
  | cons c cs ih =>
    have hcs : ¬ (['"', '"'] <:+: cs) := fun hi => h (List.infix_cons hi)
    intro k m hm
    cases k with
    | succ k => exact ih hcs k m (by simpa [findAllFrom] using hm)
    | zero =>
      cases hmh : matchHere (c :: cs) with
      | none =>
        rw [findAllFrom_none c cs hmh] at hm
        exact ih hcs 0 m hm
      | some m0 =>
        simp only [findAllFrom, hmh, List.mem_cons] at hm
        rcases hm with hm | hm
        · subst hm
          exact pickGroup_matchHere_ne_nil c cs m hmh h
        · exact ih hcs _ m hm

theorem maximalRuns_nil : maximalRuns [] = [] := by
  simp [maximalRuns]

theorem maximalRuns_space (c : Char) (cs : Str) (hs : isSpace c = true) :
    maximalRuns (c :: cs) = maximalRuns cs := by
  simp [maximalRuns, hs]

theorem maximalRuns_run (w rest : Str) (x : Char) (hne : w ≠ [])
    (hw : ∀ c ∈ w, isSpace c = false) (hx : isSpace x = true) :
    maximalRuns (w ++ x :: rest) = w :: maximalRuns rest := by
  unfold maximalRuns
  rw [List.splitOnP_first (fun c => isSpace c) w (fun c hc => by simp [hw c hc]) x hx rest]
  simp [hne]

theorem maximalRuns_single (w : Str) (hne : w ≠ []) (hw : ∀ c ∈ w, isSpace c = false) :
    maximalRuns w = [w] := by
  unfold maximalRuns
  rw [List.splitOnP_eq_single (fun c => isSpace c) w (fun c hc => by simp [hw c hc])]
  simp [hne]

theorem split_eq_maximalRuns_aux : ∀ (n : Nat) (s : Str), s.length ≤ n →
    (∀ c ∈ s, c ≠ '"' ∧ c ≠ '\'') → (findAllFrom 0 s).map pickGroup = maximalRuns s := by
  intro n
  induction n with
  | zero =>
    intro s hl _
    have : s = [] := List.length_eq_zero.mp (Nat.le_zero.mp hl)
    subst this
    simp [findAllFrom, maximalRuns_nil]
  | succ n ih =>
    intro s hl hq
    cases s with
    | nil => simp [findAllFrom, maximalRuns_nil]
    | cons c cs =>
      have hcs : ∀ d ∈ cs, d ≠ '"' ∧ d ≠ '\'' := fun d hd => hq d (List.mem_cons_of_mem _ hd)
      have hlen : cs.length ≤ n := by simpa using hl
      by_cases hs : isSpace c = true
      · rw [findAllFrom_none c cs
            (matchHere_not_word c cs (isWordChar_space c hs) (isSpace_ne_quote c hs)),
          maximalRuns_space c cs hs]
        exact ih cs hlen hcs
      · have hs2 : isSpace c = false := by simpa using hs
        have hc := hq c (List.mem_cons_self _ _)
        have hw : isWordChar c = true := isWordChar_of_plain c hs2 hc.1 hc.2
        rw [findAllFrom_word c cs hw]
        have hrun : ∀ d ∈ c :: cs.takeWhile isWordChar, isSpace d = false := by
          intro d hd
          rcases List.mem_cons.mp hd with hd | hd
          · rw [hd]; exact hs2
          · have := List.mem_takeWhile_imp hd
            by_contra hcon
            have hsd : isSpace d = true := by simpa using hcon
            rw [isWordChar_space d hsd] at this
            cases this
        cases hdw : cs.dropWhile isWordChar with
        | nil =>
          have htw : cs.takeWhile isWordChar = cs := by
            have := List.takeWhile_append_dropWhile isWordChar cs
            rw [hdw, List.append_nil] at this
            exact this
          rw [htw] at hrun ⊢
          rw [maximalRuns_single (c :: cs) (List.cons_ne_nil _ _) hrun]
          simp [findAllFrom, pickGroup]
        | cons x rest =>
          have hsplit : c :: cs = (c :: cs.takeWhile isWordChar) ++ x :: rest := by
            rw [List.cons_append, ← hdw, List.takeWhile_append_dropWhile]
          have hxmem : x ∈ cs := by
            have : x ∈ cs.dropWhile isWordChar := by rw [hdw]; exact List.mem_cons_self _ _
            exact (List.dropWhile_sublist isWordChar).subset this
          have hxw : isWordChar x = false := dropWhile_head_false isWordChar cs rest x hdw
          have hxq := hcs x hxmem
          have hxs : isSpace x = true := by
            by_contra hcon
            have hf : isSpace x = false := by simpa using hcon
            rw [isWordChar_of_plain x hf hxq.1 hxq.2] at hxw
            cases hxw
          have hrest : ∀ d ∈ rest, d ≠ '"' ∧ d ≠ '\'' := by
            intro d hd
            apply hcs d
            have : d ∈ cs.dropWhile isWordChar := by rw [hdw]; exact List.mem_cons_of_mem _ hd
            exact (List.dropWhile_sublist isWordChar).subset this
          have hrl : rest.length ≤ n := by
            have h1 : (cs.dropWhile isWordChar).length ≤ cs.length :=
              (List.dropWhile_sublist isWordChar).length_le
            rw [hdw] at h1
            simp at h1
            omega
          rw [findAllFrom_none x rest (matchHere_not_word x rest hxw hxq.1)]
          conv_rhs => rw [hsplit]
          rw [maximalRuns_run _ rest x (List.cons_ne_nil _ _) hrun hxs]
          simp [pickGroup, ih rest hrl hrest]

theorem maximalRuns_all_space (s : Str) (h : ∀ c ∈ s, isSpace c = true) : maximalRuns s = [] := by
  induction s with
  | nil => exact maximalRuns_nil
  | cons c cs ih =>
    rw [maximalRuns_space c cs (h c (List.mem_cons_self _ _))]
    exact ih (fun d hd => h d (List.mem_cons_of_mem _ hd))

theorem takeWhile_append_stop (p : Char → Bool) (s : Str) (d : Char) (hd : p d = false) :
    (s ++ [d]).takeWhile p = s.takeWhile p := by
  induction s with
  | nil => simp [List.takeWhile_cons, hd]
  | cons c cs ih =>
    by_cases hc : p c = true
    · simp [List.takeWhile_cons, hc, ih]
    · simp [List.takeWhile_cons, hc]

theorem findAllFrom_append_quote (p : Str) (hp : ∀ c ∈ p, c ≠ '"' ∧ c ≠ '\'') :
    ∀ k : Nat, findAllFrom k (p ++ ['\'']) = findAllFrom k p := by
  have hqw : isWordChar '\'' = false := by decide
  have hqq : ('\'' : Char) ≠ '"' := by decide
  induction p with
  | nil =>
    intro k
    cases k with
    | zero => simp [findAllFrom, matchHere_not_word _ _ hqw hqq]
    | succ k => simp [findAllFrom, findAllFrom_nil]
  | cons c cs ih =>
    have hcs : ∀ d ∈ cs, d ≠ '"' ∧ d ≠ '\'' := fun d hd => hp d (List.mem_cons_of_mem _ hd)
    intro k
    cases k with
    | succ k => simp [findAllFrom, ih hcs k]
    | zero =>
      have hc := hp c (List.mem_cons_self _ _)
      by_cases hw : isWordChar c = true
      · show findAllFrom 0 (c :: (cs ++ ['\''])) = findAllFrom 0 (c :: cs)
        simp only [findAllFrom, matchHere_word c _ hw,
          takeWhile_append_stop isWordChar cs _ hqw]
        rw [ih hcs]
      · have hw2 : isWordChar c = false := by simpa using hw
        rw [List.cons_append, findAllFrom_none c _ (matchHere_not_word c _ hw2 hc.1),
          findAllFrom_none c _ (matchHere_not_word c _ hw2 hc.1)]
        exact ih hcs 0

/-- C7, as amended: when the input holds no two adjacent double quotes, no
term returned by `splitSpacesOrQuoted` is the empty string. -/
theorem splitSpacesOrQuoted_ne_nil (s : Str) (h : ¬ (['"', '"'] <:+: s)) :
    ∀ t ∈ splitSpacesOrQuoted s, t ≠ [] := by
  intro t ht
  simp only [splitSpacesOrQuoted, findAllStringSubmatch, List.mem_map] at ht
  obtain ⟨m, hm, rfl⟩ := ht
  exact pickGroup_findAllFrom_ne_nil s h 0 m hm

/-- C7 fails as stated: on the input made of two double quotes the tokenizer
returns one term, the empty string. -/
theorem splitSpacesOrQuoted_empty_term :
    splitSpacesOrQuoted ['"', '"'] = [[]] ∧ ([] : Str) ∈ splitSpacesOrQuoted ['"', '"'] := by
  decide

theorem splitSpacesOrQuoted_ne_nil_witness :
    ¬ (['"', '"'] <:+: "\"night owl\" project".toList) ∧
      ∀ t ∈ splitSpacesOrQuoted "\"night owl\" project".toList, t ≠ [] :=
  ⟨by decide, splitSpacesOrQuoted_ne_nil _ (by decide)⟩

/-- C8: a double-quoted part `p` (free of double quotes), one space, then a
non-empty word `w` of non-whitespace, non-quote characters tokenizes to exactly
the two terms `p` and `w`. -/
theorem splitSpacesOrQuoted_quoted_word (p w : Str) (hp : ∀ c ∈ p, c ≠ '"') (hne : w ≠ [])
    (hw : ∀ c ∈ w, isSpace c = false ∧ c ≠ '"' ∧ c ≠ '\'') :
    splitSpacesOrQuoted ('"' :: (p ++ '"' :: ' ' :: w)) = [p, w] := by
  have hp2 : ∀ c ∈ p, (fun d : Char => d != '"') c = true := by
    intro c hc
    simpa using hp c hc
  have hstop : (fun d : Char => d != '"') '"' = false := by decide
  have hw2 : ∀ c ∈ w, isWordChar c = true :=
    fun c hc => isWordChar_of_plain c (hw c hc).1 (hw c hc).2.1 (hw c hc).2.2
  have hm : matchHere ('"' :: (p ++ '"' :: ' ' :: w)) = some ⟨'"' :: p ++ ['"'], [], p⟩ := by
    rw [matchHere_quote, dropWhile_stop _ p (' ' :: w) '"' hp2 hstop,
      takeWhile_stop _ p (' ' :: w) '"' hp2 hstop]
  have hdrop : (p ++ '"' :: ' ' :: w).drop (p.length + 1) = ' ' :: w := by
    have : p ++ '"' :: ' ' :: w = (p ++ ['"']) ++ ' ' :: w := by simp
    rw [this, List.drop_left' (by simp)]
  have hsp : matchHere (' ' :: w) = none := matchHere_not_word ' ' w (by decide) (by decide)
  simp only [splitSpacesOrQuoted, findAllStringSubmatch]
  rw [findAllFrom_some _ _ _ hm]
  simp only [List.length_cons, List.length_append, List.length_nil, Nat.add_sub_cancel]
  rw [hdrop, findAllFrom_none _ _ hsp, findAllFrom_single_word w hne hw2]
  cases w with
  | nil => exact absurd rfl hne
  | cons c cs => simp [pickGroup]

theorem splitSpacesOrQuoted_quoted_word_witness :
    splitSpacesOrQuoted "\"night owl\" project".toList = ["night owl".toList, "project".toList] :=
  splitSpacesOrQuoted_quoted_word "night owl".toList "project".toList (by decide) (by decide)
    (by decide)

/-- C9, as amended: single quotes around a quote-free text `p` are dropped and
do not group; the terms are those of `p` itself, so the result is the one term
`p` when `p` is non-empty and holds no whitespace. -/
theorem splitSpacesOrQuoted_single_quoted (p : Str) (hp : ∀ c ∈ p, c ≠ '"' ∧ c ≠ '\'') :
    splitSpacesOrQuoted ('\'' :: (p ++ ['\''])) = splitSpacesOrQuoted p ∧
      splitSpacesOrQuoted ('\'' :: (p ++ ['\''])) = maximalRuns p ∧
      (p ≠ [] → (∀ c ∈ p, isSpace c = false) →
        splitSpacesOrQuoted ('\'' :: (p ++ ['\''])) = [p]) := by
  have h1 : splitSpacesOrQuoted ('\'' :: (p ++ ['\''])) = splitSpacesOrQuoted p := by
    simp only [splitSpacesOrQuoted, findAllStringSubmatch]
    rw [findAllFrom_none _ _ (matchHere_not_word '\'' _ (by decide) (by decide)),
      findAllFrom_append_quote p hp 0]
  have h2 : splitSpacesOrQuoted p = maximalRuns p :=
    split_eq_maximalRuns_aux p.length p (Nat.le_refl _) hp
  refine ⟨h1, h1.trans h2, fun hne hs => ?_⟩
  rw [h1, h2, maximalRuns_single p hne hs]

/-- C9 fails as stated: the text `a b` wrapped in single quotes gives the two
terms `a` and `b`, not the one term `a b`. -/
theorem splitSpacesOrQuoted_single_quoted_splits :
    splitSpacesOrQuoted "'a b'".toList = ["a".toList, "b".toList] ∧
      splitSpacesOrQuoted "'a b'".toList ≠ ["a b".toList] := by
  decide

theorem splitSpacesOrQuoted_single_quoted_witness :
    splitSpacesOrQuoted ('\'' :: ("a b".toList ++ ['\''])) = splitSpacesOrQuoted "a b".toList ∧
      splitSpacesOrQuoted ('\'' :: ("a b".toList ++ ['\''])) = maximalRuns "a b".toList ∧
      ("a b".toList ≠ [] → (∀ c ∈ "a b".toList, isSpace c = false) →
        splitSpacesOrQuoted ('\'' :: ("a b".toList ++ ['\''])) = ["a b".toList]) :=
  splitSpacesOrQuoted_single_quoted "a b".toList (by decide)

/-- C10: on an input without quote characters `splitSpacesOrQuoted` returns
exactly the maximal runs of non-whitespace characters, left to right; the empty
input and an all-whitespace input give no term. -/
theorem splitSpacesOrQuoted_eq_maximalRuns (s : Str) (hq : ∀ c ∈ s, c ≠ '"' ∧ c ≠ '\'') :
    splitSpacesOrQuoted s = maximalRuns s ∧
      splitSpacesOrQuoted [] = [] ∧
      ((∀ c ∈ s, isSpace c = true) → splitSpacesOrQuoted s = []) := by
  have h : splitSpacesOrQuoted s = maximalRuns s :=
    split_eq_maximalRuns_aux s.length s (Nat.le_refl _) hq
  refine ⟨h, rfl, fun hs => ?_⟩
  rw [h, maximalRuns_all_space s hs]

theorem splitSpacesOrQuoted_eq_maximalRuns_witness :
    splitSpacesOrQuoted " morning  routine\t".toList = maximalRuns " morning  routine\t".toList ∧
      splitSpacesOrQuoted [] = [] ∧
      ((∀ c ∈ " morning  routine\t".toList, isSpace c = true) →
        splitSpacesOrQuoted " morning  routine\t".toList = []) :=
  splitSpacesOrQuoted_eq_maximalRuns " morning  routine\t".toList (by decide)

/-! ## Theorems: the comparison and the sort -/

theorem recordLess_irrefl (a : noteRecord) : recordLess a a = false := by
  simp [recordLess]

theorem recordLess_asymm (a b : noteRecord) (h : recordLess a b = true) :
    recordLess b a = false := by
  rcases a with ⟨na, ca, oa, wa, ia⟩
  rcases b with ⟨nb, cb, ob, wb, ib⟩
  revert h
  cases ca <;> cases cb <;> cases oa <;> cases ob <;> cases wa <;> cases wb <;>
    simp [recordLess] <;> omega

theorem recordLess_negTrans (a b c : noteRecord) (hab : recordLess a b = false)
    (hbc : recordLess b c = false) : recordLess a c = false := by
  rcases a with ⟨na, ca, oa, wa, ia⟩
  rcases b with ⟨nb, cb, ob, wb, ib⟩
  rcases c with ⟨nc, cc, oc, wc, ic⟩
  revert hab hbc
  cases ca <;> cases cb <;> cases cc <;> cases oa <;> cases ob <;> cases oc <;>
    cases wa <;> cases wb <;> cases wc <;> simp [recordLess] <;> omega

theorem sinkLeft_perm {α : Type} (less : α → α → Bool) (x : α) (l : List α) :
    (sinkLeft less x l).Perm (x :: l) := by
  induction l with
  | nil => exact List.Perm.refl _
  | cons y ys ih =>
    unfold sinkLeft
    split
    · exact ((List.Perm.cons y ih).trans (List.Perm.swap x y ys))
    · exact List.Perm.refl _

theorem sinkLeft_pairwise {α : Type} (less : α → α → Bool)
    (hasymm : ∀ a b, less a b = true → less b a = false)
    (hneg : ∀ a b c, less a b = false → less b c = false → less a c = false)
    (x : α) (l : List α) (hl : l.Pairwise (fun a b => less a b = false)) :
    (sinkLeft less x l).Pairwise (fun a b => less a b = false) := by
  induction l with
  | nil => simp [sinkLeft]
  | cons y ys ih =>
    rw [List.pairwise_cons] at hl
    unfold sinkLeft
    split
    · next hxy =>
      rw [List.pairwise_cons]
      refine ⟨fun z hz => ?_, ih hl.2⟩
      rcases List.mem_cons.mp ((sinkLeft_perm less x ys).mem_iff.mp hz) with hz | hz
      · rw [hz]; exact hasymm x y hxy
      · exact hl.1 z hz
    · next hxy =>
      have hxy2 : less x y = false := by simpa using hxy
      rw [List.pairwise_cons]
      refine ⟨fun z hz => ?_, List.pairwise_cons.mpr hl⟩
      rcases List.mem_cons.mp hz with hz | hz
      · rw [hz]; exact hxy2
      · exact hneg x y z hxy2 (hl.1 z hz)

theorem insertionFold_spec {α : Type} (less : α → α → Bool)
    (hasymm : ∀ a b, less a b = true → less b a = false)
    (hneg : ∀ a b c, less a b = false → less b c = false → less a c = false)
    (l : List α) : ∀ acc : List α, acc.Pairwise (fun a b => less a b = false) →
      (l.foldl (fun sortedRev x => sinkLeft less x sortedRev) acc).Perm (acc ++ l) ∧
      (l.foldl (fun sortedRev x => sinkLeft less x sortedRev) acc).Pairwise
        (fun a b => less a b = false) := by
  induction l with
  | nil => intro acc hacc; simpa using hacc
  | cons x xs ih =>
    intro acc hacc
    have h := ih (sinkLeft less x acc) (sinkLeft_pairwise less hasymm hneg x acc hacc)
    refine ⟨h.1.trans ?_, h.2⟩
    have h1 : (sinkLeft less x acc ++ xs).Perm ((x :: acc) ++ xs) :=
      List.Perm.append_right xs (sinkLeft_perm less x acc)
    refine h1.trans ?_
    simpa using (@List.perm_middle _ x acc xs).symm

/-- The library's insertion sort keeps what `sort.Slice` promises. -/
theorem insertionSortSlice_ok : SortSliceOK insertionSortSlice := by
  intro l
  have h := insertionFold_spec recordLess recordLess_asymm recordLess_negTrans l [] List.Pairwise.nil
  constructor
  · unfold insertionSortSlice
    exact (List.reverse_perm _).trans (by simpa using h.1)
  · unfold insertionSortSlice
    rw [List.pairwise_reverse]
    exact h.2

/-- In a sorted sequence a record that is less than another one stands before it. -/
theorem sorted_less_before (sorted : List noteRecord)
    (hs : sorted.Pairwise (fun a b => recordLess b a = false)) (i j : Nat) (ra rb : noteRecord)
    (hi : sorted[i]? = some ra) (hj : sorted[j]? = some rb) (hlt : recordLess ra rb = true) :
    i < j := by
  rw [List.getElem?_eq_some] at hi hj
  obtain ⟨hil, hia⟩ := hi
  obtain ⟨hjl, hjb⟩ := hj
  by_contra hcon
  rcases Nat.lt_or_ge j i with hji | hji
  · have := List.pairwise_iff_getElem.mp hs j i hjl hil hji
    rw [hia, hjb, hlt] at this
    cases this
  · have hij : i = j := by omega
    subst hij
    rw [hia] at hjb
    subst hjb
    rw [recordLess_irrefl] at hlt
    cases hlt

/-! ## Theorems: the loops of `multiWordQuery` -/

theorem phraseFold_fst (toLower : Str → Str) (lowerText : Str) (rows : List (Nat × Note)) :
    ∀ st, (rows.foldl (phraseStep toLower lowerText) st).1 =
      st.1 ++ rows.map (fun row => NewNoteRecord toLower row.1 row.2 lowerText) := by
  induction rows with
  | nil => intro st; simp
  | cons r rs ih =>
    intro st
    rw [List.foldl_cons, ih]
    simp [phraseStep, NewNoteRecord]

theorem phraseFold_snd (toLower : Str → Str) (lowerText : Str) (rows : List (Nat × Note)) :
    ∀ st k, (rows.foldl (phraseStep toLower lowerText) st).2 k = true ↔
      st.2 k = true ∨ k ∈ rows.map (fun row => noteId row.2) := by
  induction rows with
  | nil => intro st k; simp
  | cons r rs ih =>
    intro st k
    rw [List.foldl_cons, ih]
    by_cases hk : k = noteField r.2 NoteIDKey
    · simp [phraseStep, noteId, hk]
    · simp [phraseStep, noteId, hk]

theorem termRowStep_fst (toLower : Str → Str) (lowerText : Str) (fullMatch : Str → Bool)
    (st : List noteRecord × (Str → Nat)) (row : Nat × Note) :
    (termRowStep toLower lowerText fullMatch st row).1 =
      if st.2 (noteId row.2) = 0 ∧ fullMatch (noteId row.2) = false then
        st.1 ++ [NewNoteRecord toLower row.1 row.2 lowerText]
      else st.1 := by
  simp [termRowStep, noteId, NewNoteRecord]

theorem termFold_inv (toLower : Str → Str) (lowerText : Str) (fullMatch : Str → Bool)
    (rows : List (Nat × Note)) :
    (∀ k, (rows.foldl (termRowStep toLower lowerText fullMatch) ([], fun _ => 0)).2 k =
        (rows.map (fun row => noteId row.2)).count k) ∧
    (∀ r ∈ (rows.foldl (termRowStep toLower lowerText fullMatch) ([], fun _ => 0)).1,
        fullMatch (noteId r.note) = false ∧
        (∃ i, r = NewNoteRecord toLower i r.note lowerText) ∧
        (rows.map Prod.snd).find? (fun n => noteId n == noteId r.note) = some r.note) ∧
    (∀ row ∈ rows, fullMatch (noteId row.2) = false →
        ∃ r ∈ (rows.foldl (termRowStep toLower lowerText fullMatch) ([], fun _ => 0)).1,
          noteId r.note = noteId row.2) ∧
    ((rows.foldl (termRowStep toLower lowerText fullMatch) ([], fun _ => 0)).1.map
        (fun r => noteId r.note)).Nodup := by
  induction rows using List.reverseRecOn with
  | nil => simp
  | append_singleton rows row ih =>
    obtain ⟨ih1, ih2, ih3, ih4⟩ := ih
    rw [List.foldl_append, List.foldl_cons, List.foldl_nil]
    generalize hst : rows.foldl (termRowStep toLower lowerText fullMatch) ([], fun _ => 0) = st
      at ih1 ih2 ih3 ih4
    have hcount0 : st.2 (noteId row.2) = 0 → ∀ n ∈ rows.map Prod.snd, noteId n ≠ noteId row.2 := by
      intro h0 n hn hid
      rw [ih1, List.count_eq_zero] at h0
      apply h0
      rw [← hid]
      obtain ⟨r0, hr0, rfl⟩ := List.mem_map.mp hn
      exact List.mem_map.mpr ⟨r0, hr0, rfl⟩
    have hold : ∀ r ∈ st.1, fullMatch (noteId r.note) = false ∧
        (∃ i, r = NewNoteRecord toLower i r.note lowerText) ∧
        ((rows ++ [row]).map Prod.snd).find? (fun n => noteId n == noteId r.note)
          = some r.note := by
      intro r hr
      obtain ⟨h1, h2, h3⟩ := ih2 r hr
      refine ⟨h1, h2, ?_⟩
      rw [List.map_append, List.find?_append, h3]
      rfl
    refine ⟨?_, ?_, ?_, ?_⟩
    · intro k
      rw [List.map_append, List.count_append, ← ih1]
      by_cases hk : k = noteId row.2
      · simp [termRowStep, noteId, hk]
      · have hk2 : ¬ noteId row.2 = k := fun h => hk h.symm
        simp [termRowStep, List.count_singleton, hk, hk2]
        intro h
        exact absurd h hk
    · intro r hr
      rw [termRowStep_fst] at hr
      by_cases hnew : st.2 (noteId row.2) = 0 ∧ fullMatch (noteId row.2) = false
      · rw [if_pos hnew] at hr
        rcases List.mem_append.mp hr with hr3 | hr3
        · exact hold r hr3
        · have hreq : r = NewNoteRecord toLower row.1 row.2 lowerText := by simpa using hr3
          have hnote : r.note = row.2 := by rw [hreq]; rfl
          refine ⟨by rw [hnote]; exact hnew.2, ⟨row.1, by rw [hnote]; exact hreq⟩, ?_⟩
          rw [List.map_append, List.find?_append, hnote]
          have hnone : (rows.map Prod.snd).find? (fun n => noteId n == noteId row.2) = none := by
            rw [List.find?_eq_none]
            intro n hn
            simpa using hcount0 hnew.1 n hn
          rw [hnone]
          simp
      · rw [if_neg hnew] at hr
        exact hold r hr
    · intro row0 hrow0 hfm
      have hsub : ∀ r ∈ st.1, r ∈ (termRowStep toLower lowerText fullMatch st row).1 := by
        intro r hr
        rw [termRowStep_fst]
        split
        · exact List.mem_append_left _ hr
        · exact hr
      rcases List.mem_append.mp hrow0 with h | h
      · obtain ⟨r, hr, hid⟩ := ih3 row0 h hfm
        exact ⟨r, hsub r hr, hid⟩
      · have hrow : row0 = row := by simpa using h
        subst hrow
        by_cases hc : st.2 (noteId row0.2) = 0
        · refine ⟨NewNoteRecord toLower row0.1 row0.2 lowerText, ?_, rfl⟩
          rw [termRowStep_fst, if_pos ⟨hc, hfm⟩]
          simp
        · have hpos : 0 < (rows.map (fun row => noteId row.2)).count (noteId row0.2) := by
            rw [← ih1]; omega
          rw [List.count_pos_iff] at hpos
          obtain ⟨r1, hr1, hid1⟩ := List.mem_map.mp hpos
          have hfm1 : fullMatch (noteId r1.2) = false := by rw [hid1]; exact hfm
          obtain ⟨r, hr, hid⟩ := ih3 r1 hr1 hfm1
          exact ⟨r, hsub r hr, hid.trans hid1⟩
    · rw [termRowStep_fst]
      by_cases hnew : st.2 (noteId row.2) = 0 ∧ fullMatch (noteId row.2) = false
      · rw [if_pos hnew, List.map_append, List.nodup_append]
        refine ⟨ih4, by simp, ?_⟩
        intro k hk1 hk2
        have hk3 : k = noteId row.2 := by simpa [NewNoteRecord] using hk2
        obtain ⟨r, hr, hrk⟩ := List.mem_map.mp hk1
        obtain ⟨_, _, hfind⟩ := ih2 r hr
        have hmem := List.mem_of_find?_eq_some hfind
        exact hcount0 hnew.1 r.note hmem (by rw [hrk, hk3])
      · rw [if_neg hnew]
        exact ih4

theorem termLoop_snd {ε : Type} (toLower : Str → Str) (lowerText : Str) (fullMatch : Str → Bool)
    (wordQuery : Str → List Note × Option ε) (words : List Str) :
    ∀ st, (termLoop toLower lowerText fullMatch wordQuery words st).2 =
      (words.find? (fun w => (wordQuery w).2.isSome)).bind (fun w => (wordQuery w).2) := by
  induction words with
  | nil => intro st; rfl
  | cons w ws ih =>
    intro st
    unfold termLoop
    rcases h : wordQuery w with ⟨notes, _ | err⟩
    · simp [List.find?_cons, h, ih]
    · simp [List.find?_cons, h]

theorem termLoop_ok {ε : Type} (toLower : Str → Str) (lowerText : Str) (fullMatch : Str → Bool)
    (wordQuery : Str → List Note × Option ε) (words : List Str) :
    ∀ st, (∀ w ∈ words, (wordQuery w).2 = none) →
      termLoop toLower lowerText fullMatch wordQuery words st =
        ((termRows wordQuery words).foldl (termRowStep toLower lowerText fullMatch) st, none) := by
  induction words with
  | nil => intro st _; rfl
  | cons w ws ih =>
    intro st hok
    unfold termLoop
    have hw := hok w (List.mem_cons_self _ _)
    rcases h : wordQuery w with ⟨notes, _ | err⟩
    · simp only
      rw [ih _ (fun v hv => hok v (List.mem_cons_of_mem _ hv))]
      simp [termRows, h]
    · rw [h] at hw
      cases hw

theorem find_failing_none {ε : Type} (wordQuery : Str → List Note × Option ε) (qs : List Str)
    (h : (qs.find? (fun w => (wordQuery w).2.isSome)).bind (fun w => (wordQuery w).2) = none) :
    ∀ q ∈ qs, (wordQuery q).2 = none := by
  cases hf : qs.find? (fun w => (wordQuery w).2.isSome) with
  | none =>
    intro q hq
    have := List.find?_eq_none.mp hf q hq
    simpa using this
  | some w =>
    have hsome := List.find?_some hf
    rw [hf] at h
    simp only [Option.some_bind] at h
    rw [h] at hsome
    cases hsome

theorem retainFold (count : Str → Nat) (n : Nat) (pool : List noteRecord) :
    ∀ acc, pool.foldl (retainStep count n) acc =
      acc ++ pool.filter (fun r => count (noteId r.note) == n || r.containsWords) := by
  induction pool with
  | nil => intro acc; simp
  | cons r rs ih =>
    intro acc
    rw [List.foldl_cons, ih]
    by_cases hk : (count (noteId r.note) == n || r.containsWords) = true
    · have hk2 : (count (noteField r.note NoteIDKey) == n || r.containsWords) = true := hk
      simp [retainStep, List.filter_cons, hk, hk2]
    · have hk2 : ¬ (count (noteField r.note NoteIDKey) == n || r.containsWords) = true := hk
      simp only [retainStep, List.filter_cons, if_neg hk, if_neg hk2]

/-- The error of `collectRecords` is that of the first failing lookup, the
phrase lookup first and then the terms in order. -/
theorem collectRecords_snd {ε : Type} (toLower : Str → Str) (text : Str)
    (wordQuery : Str → List Note × Option ε) :
    (collectRecords toLower text wordQuery).2 =
      ((toLower text :: splitSpacesOrQuoted (toLower text)).find?
        (fun w => (wordQuery w).2.isSome)).bind (fun w => (wordQuery w).2) := by
  unfold collectRecords
  simp only
  rcases h : wordQuery (toLower text) with ⟨notes, _ | err⟩
  · simp only [List.find?_cons, h, Option.isSome_none]
    rw [← termLoop_snd toLower (toLower text)
      (notes.enum.foldl (phraseStep toLower (toLower text)) ([], fun _ => false)).2 wordQuery
      (splitSpacesOrQuoted (toLower text)) ([], fun _ => 0)]
    rcases termLoop toLower (toLower text) _ wordQuery _ _ with ⟨st, _ | err⟩ <;> rfl
  · simp [List.find?_cons, h]

theorem collectRecords_err {ε : Type} (toLower : Str → Str) (text : Str)
    (wordQuery : Str → List Note × Option ε) (h : (collectRecords toLower text wordQuery).2 ≠ none) :
    (collectRecords toLower text wordQuery).1 = [] := by
  revert h
  unfold collectRecords
  simp only
  rcases wordQuery (toLower text) with ⟨notes, _ | err⟩
  · simp only
    rcases termLoop toLower (toLower text) _ wordQuery _ _ with ⟨st, _ | err⟩
    · intro h
      exact absurd rfl h
    · intro _
      rfl
  · intro _
    rfl

/-- The working sequence of a search without a failing lookup: the records of
the phrase lookup's rows, then the retained pending records. -/
theorem collectRecords_ok {ε : Type} (toLower : Str → Str) (text : Str)
    (wordQuery : Str → List Note × Option ε) (h : (collectRecords toLower text wordQuery).2 = none) :
    (∀ q ∈ toLower text :: splitSpacesOrQuoted (toLower text), (wordQuery q).2 = none) ∧
    (collectRecords toLower text wordQuery).1 =
      (wordQuery (toLower text)).1.enum.map
          (fun row => NewNoteRecord toLower row.1 row.2 (toLower text)) ++
        (pendingOf toLower (toLower text) (wordQuery (toLower text)).1 wordQuery
            (splitSpacesOrQuoted (toLower text))).1.filter
          (fun r =>
            (pendingOf toLower (toLower text) (wordQuery (toLower text)).1 wordQuery
              (splitSpacesOrQuoted (toLower text))).2 (noteId r.note)
                == (splitSpacesOrQuoted (toLower text)).length || r.containsWords) := by
  have hall := find_failing_none wordQuery _ ((collectRecords_snd toLower text wordQuery).symm.trans h)
  refine ⟨hall, ?_⟩
  have hphrase := hall (toLower text) (List.mem_cons_self _ _)
  have hwords : ∀ w ∈ splitSpacesOrQuoted (toLower text), (wordQuery w).2 = none :=
    fun w hw => hall w (List.mem_cons_of_mem _ hw)
  unfold collectRecords
  simp only
  rcases hq : wordQuery (toLower text) with ⟨notes, _ | err⟩
  · simp only
    rw [termLoop_ok toLower (toLower text) _ wordQuery _ _ hwords]
    simp only [retainFold, phraseFold_fst, List.nil_append]
    rfl
  · rw [hq] at hphrase
    cases hphrase

/-! ## Theorems: `multiWordQuery` -/

theorem multiWordQuery_snd {ε : Type} (toLower : Str → Str)
    (sortSlice : (noteRecord → noteRecord → Bool) → List noteRecord → List noteRecord)
    (text : Str) (wordQuery : Str → List Note × Option ε) :
    (multiWordQuery toLower sortSlice text wordQuery).2 =
      (collectRecords toLower text wordQuery).2 := by
  unfold multiWordQuery
  rcases collectRecords toLower text wordQuery with ⟨recs, _ | err⟩ <;> rfl

theorem multiWordQuery_fst_err {ε : Type} (toLower : Str → Str)
    (sortSlice : (noteRecord → noteRecord → Bool) → List noteRecord → List noteRecord)
    (text : Str) (wordQuery : Str → List Note × Option ε)
    (h : (collectRecords toLower text wordQuery).2 ≠ none) :
    (multiWordQuery toLower sortSlice text wordQuery).1 = [] := by
  revert h
  unfold multiWordQuery
  rcases collectRecords toLower text wordQuery with ⟨recs, _ | err⟩
  · intro h; exact absurd rfl h
  · intro _; rfl

theorem multiWordQuery_fst_ok {ε : Type} (toLower : Str → Str)
    (sortSlice : (noteRecord → noteRecord → Bool) → List noteRecord → List noteRecord)
    (text : Str) (wordQuery : Str → List Note × Option ε)
    (h : (collectRecords toLower text wordQuery).2 = none) :
    (multiWordQuery toLower sortSlice text wordQuery).1 =
      (sortSlice recordLess (collectRecords toLower text wordQuery).1).map (fun r => r.note) := by
  revert h
  unfold multiWordQuery
  rcases collectRecords toLower text wordQuery with ⟨recs, _ | err⟩
  · intro _; rfl
  · intro h; cases h

theorem fullMatchOf_iff (toLower : Str → Str) (lowerText : Str) (notes : List Note) (k : Str) :
    fullMatchOf toLower lowerText notes k = true ↔ k ∈ notes.map noteId := by
  unfold fullMatchOf
  rw [phraseFold_snd]
  have : notes.enum.map (fun row => noteId row.2) = notes.map noteId := by
    have h1 : notes.enum.map (fun row => noteId row.2) = (notes.enum.map Prod.snd).map noteId := by
      rw [List.map_map]
      rfl
    rw [h1, List.enum_map_snd]
  rw [this]
  simp

theorem phraseRecords_ids (toLower : Str → Str) (lowerText : Str) (notes : List Note) :
    (notes.enum.map (fun row => NewNoteRecord toLower row.1 row.2 lowerText)).map
      (fun r => r.note) = notes := by
  rw [List.map_map]
  have : ((fun r : noteRecord => r.note) ∘
      fun row : Nat × Note => NewNoteRecord toLower row.1 row.2 lowerText) = Prod.snd := by
    funext row
    rfl
  rw [this, List.enum_map_snd]

/-- Every record of the working sequence is `NewNoteRecord` of its own row. -/
theorem collectRecords_new {ε : Type} (toLower : Str → Str) (text : Str)
    (wordQuery : Str → List Note × Option ε) (r : noteRecord)
    (hr : r ∈ (collectRecords toLower text wordQuery).1) :
    ∃ i, r = NewNoteRecord toLower i r.note (toLower text) := by
  by_cases h : (collectRecords toLower text wordQuery).2 = none
  · rw [(collectRecords_ok toLower text wordQuery h).2] at hr
    rcases List.mem_append.mp hr with hr | hr
    · obtain ⟨row, _, rfl⟩ := List.mem_map.mp hr
      exact ⟨row.1, rfl⟩
    · have hp := (List.mem_filter.mp hr).1
      exact ((termFold_inv toLower (toLower text) _ _).2.1 r hp).2.1
  · rw [collectRecords_err toLower text wordQuery h] at hr
    cases hr

/-- Two rows of the output come from records built by `NewNoteRecord`; when the
record of the first is less than the record of the second, whatever their batch
positions, the first stands before the second. -/
theorem output_order {ε : Type} (toLower : Str → Str)
    (sortSlice : (noteRecord → noteRecord → Bool) → List noteRecord → List noteRecord)
    (hsort : SortSliceOK sortSlice) (text : Str) (wordQuery : Str → List Note × Option ε)
    (i j : Nat) (a b : Note)
    (ha : (multiWordQuery toLower sortSlice text wordQuery).1[i]? = some a)
    (hb : (multiWordQuery toLower sortSlice text wordQuery).1[j]? = some b)
    (hless : ∀ ia ib, recordLess (NewNoteRecord toLower ia a (toLower text))
      (NewNoteRecord toLower ib b (toLower text)) = true) : i < j := by
  by_cases h : (collectRecords toLower text wordQuery).2 = none
  · rw [multiWordQuery_fst_ok toLower sortSlice text wordQuery h, List.getElem?_map] at ha hb
    obtain ⟨hperm, hpair⟩ := hsort (collectRecords toLower text wordQuery).1
    cases hra : (sortSlice recordLess (collectRecords toLower text wordQuery).1)[i]? with
    | none => rw [hra] at ha; cases ha
    | some ra =>
      cases hrb : (sortSlice recordLess (collectRecords toLower text wordQuery).1)[j]? with
      | none => rw [hrb] at hb; cases hb
      | some rb =>
        rw [hra] at ha
        rw [hrb] at hb
        have hna : ra.note = a := by simpa using ha
        have hnb : rb.note = b := by simpa using hb
        obtain ⟨ia, hia⟩ := collectRecords_new toLower text wordQuery ra
          (hperm.mem_iff.mp (List.getElem?_mem hra))
        obtain ⟨ib, hib⟩ := collectRecords_new toLower text wordQuery rb
          (hperm.mem_iff.mp (List.getElem?_mem hrb))
        have hlt := hless ia ib
        rw [← hna, ← hnb, ← hia, ← hib] at hlt
        exact sorted_less_before _ hpair i j ra rb hra hrb hlt
  · rw [multiWordQuery_fst_err toLower sortSlice text wordQuery h] at ha
    cases ha

theorem signalsAbove_recordLess (toLower : Str → Str) (lowerText : Str) (a b : Note)
    (h : signalsAbove toLower lowerText a b = true) (ia ib : Nat) :
    recordLess (NewNoteRecord toLower ia a lowerText) (NewNoteRecord toLower ib b lowerText)
      = true := by
  revert h
  simp only [signalsAbove, recordLess, NewNoteRecord]
  generalize stringsContains (toLower (noteField a TitleKey)) lowerText = ca
  generalize stringsContains (toLower (noteField b TitleKey)) lowerText = cb
  generalize containsOrderedWords (toLower (noteField a TitleKey)) (stringsSplitSpace lowerText) = oa
  generalize containsOrderedWords (toLower (noteField b TitleKey)) (stringsSplitSpace lowerText) = ob
  generalize containsWords (toLower (noteField a TitleKey)) (stringsSplitSpace lowerText) = wa
  generalize containsWords (toLower (noteField b TitleKey)) (stringsSplitSpace lowerText) = wb
  cases ca <;> cases cb <;> cases oa <;> cases ob <;> cases wa <;> cases wb <;> simp

/-- C1: when the phrase lookup's batch repeats no identifier, the output of
`multiWordQuery` repeats no identifier, whatever the term lookups return. -/
theorem multiWordQuery_nodup {ε : Type} (toLower : Str → Str)
    (sortSlice : (noteRecord → noteRecord → Bool) → List noteRecord → List noteRecord)
    (hsort : SortSliceOK sortSlice) (text : Str) (wordQuery : Str → List Note × Option ε)
    (hphrase : ((wordQuery (toLower text)).1.map noteId).Nodup) :
    ((multiWordQuery toLower sortSlice text wordQuery).1.map noteId).Nodup := by
  by_cases h : (collectRecords toLower text wordQuery).2 = none
  · rw [multiWordQuery_fst_ok toLower sortSlice text wordQuery h, List.map_map]
    obtain ⟨hperm, _⟩ := hsort (collectRecords toLower text wordQuery).1
    rw [(hperm.map _).nodup_iff, (collectRecords_ok toLower text wordQuery h).2, List.map_append,
      List.nodup_append]
    obtain ⟨_, hinv2, _, hinv4⟩ := termFold_inv toLower (toLower text)
      (fullMatchOf toLower (toLower text) (wordQuery (toLower text)).1)
      (termRows wordQuery (splitSpacesOrQuoted (toLower text)))
    have hids : ((wordQuery (toLower text)).1.enum.map
        (fun row => NewNoteRecord toLower row.1 row.2 (toLower text))).map
          (noteId ∘ fun r => r.note) = (wordQuery (toLower text)).1.map noteId := by
      rw [← List.map_map, phraseRecords_ids]
    refine ⟨by rw [hids]; exact hphrase, ?_, ?_⟩
    · exact ((List.filter_sublist _).map _).nodup hinv4
    · intro k hk1 hk2
      rw [hids] at hk1
      obtain ⟨r, hr, hrk⟩ := List.mem_map.mp hk2
      have hfm := (hinv2 r (List.mem_filter.mp hr).1).1
      have hfm2 := (fullMatchOf_iff toLower (toLower text) (wordQuery (toLower text)).1 k).mpr hk1
      have hrk2 : noteId r.note = k := hrk
      rw [hrk2, hfm2] at hfm
      cases hfm
  · rw [multiWordQuery_fst_err toLower sortSlice text wordQuery h]
    exact List.nodup_nil

theorem multiWordQuery_nodup_witness :
    ((storeRanked (asciiToLower "foo bar".toList)).1.map noteId).Nodup ∧
      ((multiWordQuery asciiToLower insertionSortSlice "foo bar".toList storeRanked).1.map
        noteId).Nodup :=
  ⟨by decide, multiWordQuery_nodup asciiToLower insertionSortSlice insertionSortSlice_ok
    "foo bar".toList storeRanked (by decide)⟩

/-- C2 fails as stated: for the query `foo bar` on `storeFooBar` the output puts
`noteWords`, which only term lookups returned, before `noteBody`, which the
phrase lookup returned. -/
theorem phrase_row_not_first :
    multiWordQuery asciiToLower insertionSortSlice "foo bar".toList storeFooBar
        = ([noteWords, noteBody], none) ∧
      noteBody ∈ (storeFooBar (asciiToLower "foo bar".toList)).1 ∧
      noteId noteWords ∉ (storeFooBar (asciiToLower "foo bar".toList)).1.map noteId ∧
      ¬ (∀ (i j : Nat) (a b : Note),
          (multiWordQuery asciiToLower insertionSortSlice "foo bar".toList storeFooBar).1[i]?
            = some a →
          (multiWordQuery asciiToLower insertionSortSlice "foo bar".toList storeFooBar).1[j]?
            = some b →
          a ∈ (storeFooBar (asciiToLower "foo bar".toList)).1 →
          noteId b ∉ (storeFooBar (asciiToLower "foo bar".toList)).1.map noteId → i < j) := by
  refine ⟨by decide, by decide, by decide, fun hall => ?_⟩
  have := hall 1 0 noteBody noteWords (by decide) (by decide) (by decide) (by decide)
  omega

/-- C2, as amended: a row that the phrase lookup returned stands before every
row that only term lookups returned and whose title signals rank strictly
below its own (full-phrase signal first, then in-order, then any-order). -/
theorem phrase_row_before_lower_signals {ε : Type} (toLower : Str → Str)
    (sortSlice : (noteRecord → noteRecord → Bool) → List noteRecord → List noteRecord)
    (hsort : SortSliceOK sortSlice) (text : Str) (wordQuery : Str → List Note × Option ε)
    (i j : Nat) (a b : Note)
    (ha : (multiWordQuery toLower sortSlice text wordQuery).1[i]? = some a)
    (hb : (multiWordQuery toLower sortSlice text wordQuery).1[j]? = some b)
    (_hphrase : a ∈ (wordQuery (toLower text)).1)
    (_hterm : noteId b ∉ (wordQuery (toLower text)).1.map noteId)
    (habove : signalsAbove toLower (toLower text) a b = true) : i < j := by
  exact output_order toLower sortSlice hsort text wordQuery i j a b ha hb
    (signalsAbove_recordLess toLower (toLower text) a b habove)

theorem phrase_row_before_lower_signals_witness :
    (multiWordQuery asciiToLower insertionSortSlice "foo bar".toList storeRanked).1[0]?
        = some notePhrase ∧
      (multiWordQuery asciiToLower insertionSortSlice "foo bar".toList storeRanked).1[1]?
        = some noteWords ∧
      notePhrase ∈ (storeRanked (asciiToLower "foo bar".toList)).1 ∧
      noteId noteWords ∉ (storeRanked (asciiToLower "foo bar".toList)).1.map noteId ∧
      signalsAbove asciiToLower (asciiToLower "foo bar".toList) notePhrase noteWords = true ∧
      0 < 1 :=
  ⟨by decide, by decide, by decide, by decide, by decide,
    phrase_row_before_lower_signals asciiToLower insertionSortSlice insertionSortSlice_ok
      "foo bar".toList storeRanked 0 1 notePhrase noteWords (by decide) (by decide) (by decide)
      (by decide) (by decide)⟩

/-- C3: in the output a row whose lower-cased title contains the lower-cased
query text stands before every row whose lower-cased title does not. -/
theorem title_phrase_first {ε : Type} (toLower : Str → Str)
    (sortSlice : (noteRecord → noteRecord → Bool) → List noteRecord → List noteRecord)
    (hsort : SortSliceOK sortSlice) (text : Str) (wordQuery : Str → List Note × Option ε)
    (i j : Nat) (a b : Note)
    (ha : (multiWordQuery toLower sortSlice text wordQuery).1[i]? = some a)
    (hb : (multiWordQuery toLower sortSlice text wordQuery).1[j]? = some b)
    (hca : stringsContains (noteTitle toLower a) (toLower text) = true)
    (hcb : stringsContains (noteTitle toLower b) (toLower text) = false) : i < j := by
  apply output_order toLower sortSlice hsort text wordQuery i j a b ha hb
  intro ia ib
  unfold noteTitle at hca hcb
  simp [recordLess, NewNoteRecord, hca, hcb]

theorem title_phrase_first_witness :
    (multiWordQuery asciiToLower insertionSortSlice "foo bar".toList storeRanked).1[0]?
        = some notePhrase ∧
      (multiWordQuery asciiToLower insertionSortSlice "foo bar".toList storeRanked).1[3]?
        = some noteBody ∧
      stringsContains (noteTitle asciiToLower notePhrase) (asciiToLower "foo bar".toList) = true ∧
      stringsContains (noteTitle asciiToLower noteBody) (asciiToLower "foo bar".toList) = false ∧
      0 < 3 :=
  ⟨by decide, by decide, by decide, by decide,
    title_phrase_first asciiToLower insertionSortSlice insertionSortSlice_ok
      "foo bar".toList storeRanked 0 3 notePhrase noteBody (by decide) (by decide) (by decide)
      (by decide)⟩

/-- C4: among the rows of the output whose lower-cased title does not contain
the lower-cased query text, a row whose in-order signal is true stands before
every row whose title contains all the words but whose in-order signal is
false.  The words are those the signals are computed from, the pieces of the
lower-cased text between single spaces. -/
theorem ordered_words_first {ε : Type} (toLower : Str → Str)
    (sortSlice : (noteRecord → noteRecord → Bool) → List noteRecord → List noteRecord)
    (hsort : SortSliceOK sortSlice) (text : Str) (wordQuery : Str → List Note × Option ε)
    (i j : Nat) (a b : Note)
    (ha : (multiWordQuery toLower sortSlice text wordQuery).1[i]? = some a)
    (hb : (multiWordQuery toLower sortSlice text wordQuery).1[j]? = some b)
    (hca : stringsContains (noteTitle toLower a) (toLower text) = false)
    (hcb : stringsContains (noteTitle toLower b) (toLower text) = false)
    (hoa : containsOrderedWords (noteTitle toLower a) (stringsSplitSpace (toLower text)) = true)
    (_hwb : containsWords (noteTitle toLower b) (stringsSplitSpace (toLower text)) = true)
    (hob : containsOrderedWords (noteTitle toLower b) (stringsSplitSpace (toLower text)) = false) :
    i < j := by
  apply output_order toLower sortSlice hsort text wordQuery i j a b ha hb
  intro ia ib
  unfold noteTitle at hca hcb hoa hob
  simp [recordLess, NewNoteRecord, hca, hcb, hoa, hob]

theorem ordered_words_first_witness :
    (multiWordQuery asciiToLower insertionSortSlice "foo bar".toList storeRanked).1[1]?
        = some noteWords ∧
      (multiWordQuery asciiToLower insertionSortSlice "foo bar".toList storeRanked).1[2]?
        = some noteSwap ∧
      stringsContains (noteTitle asciiToLower noteWords) (asciiToLower "foo bar".toList) = false ∧
      stringsContains (noteTitle asciiToLower noteSwap) (asciiToLower "foo bar".toList) = false ∧
      containsOrderedWords (noteTitle asciiToLower noteWords)
        (stringsSplitSpace (asciiToLower "foo bar".toList)) = true ∧
      containsWords (noteTitle asciiToLower noteSwap)
        (stringsSplitSpace (asciiToLower "foo bar".toList)) = true ∧
      containsOrderedWords (noteTitle asciiToLower noteSwap)
        (stringsSplitSpace (asciiToLower "foo bar".toList)) = false ∧
      1 < 2 :=
  ⟨by decide, by decide, by decide, by decide, by decide, by decide, by decide,
    ordered_words_first asciiToLower insertionSortSlice insertionSortSlice_ok
      "foo bar".toList storeRanked 1 2 noteWords noteSwap (by decide) (by decide) (by decide)
      (by decide) (by decide) (by decide) (by decide)⟩

/-- C5: `multiWordQuery` fails exactly when one of its lookups fails (the phrase
lookup, then the terms in order), and then it returns the error of the first
failing lookup, unchanged, with no rows. -/
theorem multiWordQuery_fails_iff {ε : Type} (toLower : Str → Str)
    (sortSlice : (noteRecord → noteRecord → Bool) → List noteRecord → List noteRecord)
    (text : Str) (wordQuery : Str → List Note × Option ε) :
    ((multiWordQuery toLower sortSlice text wordQuery).2 ≠ none ↔
        ∃ q ∈ toLower text :: splitSpacesOrQuoted (toLower text), (wordQuery q).2 ≠ none) ∧
      (∀ q, (toLower text :: splitSpacesOrQuoted (toLower text)).find?
            (fun w => (wordQuery w).2.isSome) = some q →
          multiWordQuery toLower sortSlice text wordQuery = ([], (wordQuery q).2)) := by
  have hsnd := (multiWordQuery_snd toLower sortSlice text wordQuery).trans
    (collectRecords_snd toLower text wordQuery)
  constructor
  · constructor
    · intro hne
      by_contra hcon
      apply hne
      rw [hsnd]
      have hall : ∀ q ∈ toLower text :: splitSpacesOrQuoted (toLower text),
          (wordQuery q).2 = none := by
        intro q hq
        by_contra hq2
        exact hcon ⟨q, hq, hq2⟩
      have : (toLower text :: splitSpacesOrQuoted (toLower text)).find?
          (fun w => (wordQuery w).2.isSome) = none := by
        rw [List.find?_eq_none]
        intro q hq
        simp [hall q hq]
      rw [this]
      rfl
    · rintro ⟨q, hq, hfail⟩ hnone
      rw [hsnd] at hnone
      exact hfail (find_failing_none wordQuery _ hnone q hq)
  · intro q hq
    have hsome := List.find?_some hq
    have h2 : (multiWordQuery toLower sortSlice text wordQuery).2 = (wordQuery q).2 := by
      rw [hsnd, hq]
      rfl
    have hne : (collectRecords toLower text wordQuery).2 ≠ none := by
      rw [← multiWordQuery_snd toLower sortSlice text wordQuery, h2]
      intro hn
      rw [hn] at hsome
      cases hsome
    exact Prod.ext (multiWordQuery_fst_err toLower sortSlice text wordQuery hne) h2

theorem multiWordQuery_fails_iff_witness :
    multiWordQuery asciiToLower insertionSortSlice "foo bar".toList storeBarFails
      = ([], some "disk I/O error") :=
  (multiWordQuery_fails_iff asciiToLower insertionSortSlice "foo bar".toList storeBarFails).2
    "bar".toList (by decide)

theorem containsWords_iff (text : Str) (words : List Str) :
    containsWords text words = true ↔ ∀ v ∈ words, stringsContains text v = true := by
  induction words with
  | nil => simp [containsWords]
  | cons w ws ih =>
    unfold containsWords
    by_cases hw : stringsContains text w = true
    · simp [hw, ih]
    · simp [hw]

theorem termRows_notes {ε : Type} (wordQuery : Str → List Note × Option ε) (words : List Str) :
    (termRows wordQuery words).map Prod.snd = words.flatMap (fun w => (wordQuery w).1) := by
  induction words with
  | nil => rfl
  | cons w ws ih =>
    have h : termRows wordQuery (w :: ws) = (wordQuery w).1.enum ++ termRows wordQuery ws := rfl
    rw [h, List.map_append, List.enum_map_snd, ih, List.flatMap_cons]

theorem termRows_ids {ε : Type} (wordQuery : Str → List Note × Option ε) (words : List Str) :
    (termRows wordQuery words).map (fun row => noteId row.2) =
      (words.flatMap (fun w => (wordQuery w).1)).map noteId := by
  rw [← termRows_notes, List.map_map]
  rfl

theorem count_le_one_of_nodup (l : List Str) (k : Str) (h : l.Nodup) : l.count k ≤ 1 := by
  induction l with
  | nil => simp
  | cons b bs ih =>
    rw [List.nodup_cons] at h
    rw [List.count_cons]
    by_cases hb : (b == k) = true
    · have hbk : b = k := by simpa using hb
      have h0 : bs.count k = 0 := List.count_eq_zero.mpr (by rw [← hbk]; exact h.1)
      simp [hb, h0]
    · have := ih h.2
      simp [hb]
      exact this

theorem count_all_batches {ε : Type} (wordQuery : Str → List Note × Option ε) (k : Str)
    (words : List Str) (hbatch : ∀ w ∈ words, ((wordQuery w).1.map noteId).Nodup) :
    ((words.flatMap (fun w => (wordQuery w).1)).map noteId).count k ≤ words.length ∧
      (((words.flatMap (fun w => (wordQuery w).1)).map noteId).count k = words.length ↔
        ∀ w ∈ words, k ∈ (wordQuery w).1.map noteId) := by
  induction words with
  | nil => simp
  | cons w ws ih =>
    obtain ⟨ih1, ih2⟩ := ih (fun v hv => hbatch v (List.mem_cons_of_mem _ hv))
    have hw := hbatch w (List.mem_cons_self _ _)
    have hle : ((wordQuery w).1.map noteId).count k ≤ 1 := count_le_one_of_nodup _ k hw
    rw [List.flatMap_cons, List.map_append, List.count_append, List.length_cons]
    constructor
    · omega
    · constructor
      · intro heq v hv
        rcases List.mem_cons.mp hv with hv | hv
        · rw [hv]
          apply List.count_pos_iff.mp
          omega
        · exact ih2.mp (by omega) v hv
      · intro hall
        have h1 : 0 < ((wordQuery w).1.map noteId).count k :=
          List.count_pos_iff.mpr (hall w (List.mem_cons_self _ _))
        have h2 := ih2.mpr (fun v hv => hall v (List.mem_cons_of_mem _ hv))
        omega

/-- C6: for a search without a failing lookup whose term batches repeat no
identifier, an identifier is in the output exactly when it is in the phrase
batch, or it is in some term batch and either in every term batch or its
first-seen row has a lower-cased title containing every space-separated word
of the lower-cased text; every row of the phrase batch is in the output. -/
theorem output_ids_iff {ε : Type} (toLower : Str → Str)
    (sortSlice : (noteRecord → noteRecord → Bool) → List noteRecord → List noteRecord)
    (hsort : SortSliceOK sortSlice) (text : Str) (wordQuery : Str → List Note × Option ε)
    (hok : (multiWordQuery toLower sortSlice text wordQuery).2 = none)
    (hbatch : ∀ w ∈ splitSpacesOrQuoted (toLower text), ((wordQuery w).1.map noteId).Nodup)
    (k : Str) :
    (k ∈ (multiWordQuery toLower sortSlice text wordQuery).1.map noteId ↔
      k ∈ (wordQuery (toLower text)).1.map noteId ∨
      ((∃ w ∈ splitSpacesOrQuoted (toLower text), k ∈ (wordQuery w).1.map noteId) ∧
        ((∀ w ∈ splitSpacesOrQuoted (toLower text), k ∈ (wordQuery w).1.map noteId) ∨
          ∃ row, ((splitSpacesOrQuoted (toLower text)).flatMap (fun w => (wordQuery w).1)).find?
              (fun n => noteId n == k) = some row ∧
            ∀ v ∈ stringsSplitSpace (toLower text),
              stringsContains (noteTitle toLower row) v = true))) ∧
    (∀ n ∈ (wordQuery (toLower text)).1,
      n ∈ (multiWordQuery toLower sortSlice text wordQuery).1) := by
  have h : (collectRecords toLower text wordQuery).2 = none := by
    rw [← multiWordQuery_snd toLower sortSlice text wordQuery]
    exact hok
  obtain ⟨hperm, _⟩ := hsort (collectRecords toLower text wordQuery).1
  have hrecs := (collectRecords_ok toLower text wordQuery h).2
  obtain ⟨hinv1, hinv2, hinv3, _⟩ := termFold_inv toLower (toLower text)
    (fullMatchOf toLower (toLower text) (wordQuery (toLower text)).1)
    (termRows wordQuery (splitSpacesOrQuoted (toLower text)))
  rw [termRows_ids] at hinv1
  rw [termRows_notes] at hinv2
  have hcount := count_all_batches wordQuery k (splitSpacesOrQuoted (toLower text)) hbatch
  have hout : ∀ r ∈ (collectRecords toLower text wordQuery).1,
      r.note ∈ (multiWordQuery toLower sortSlice text wordQuery).1 := by
    intro r hr
    rw [multiWordQuery_fst_ok toLower sortSlice text wordQuery h]
    exact List.mem_map.mpr ⟨r, hperm.mem_iff.mpr hr, rfl⟩
  have hphrase : ∀ n ∈ (wordQuery (toLower text)).1,
      n ∈ (multiWordQuery toLower sortSlice text wordQuery).1 := by
    intro n hn
    rw [← phraseRecords_ids toLower (toLower text) (wordQuery (toLower text)).1] at hn
    obtain ⟨r, hr, rfl⟩ := List.mem_map.mp hn
    apply hout
    rw [hrecs]
    exact List.mem_append_left _ hr
  refine ⟨⟨fun hk => ?_, fun hk => ?_⟩, hphrase⟩
  · rw [multiWordQuery_fst_ok toLower sortSlice text wordQuery h, List.map_map] at hk
    obtain ⟨r, hr, hrk⟩ := List.mem_map.mp hk
    have hrk2 : noteId r.note = k := hrk
    have hr2 := hperm.mem_iff.mp hr
    rw [hrecs] at hr2
    rcases List.mem_append.mp hr2 with hr3 | hr3
    · left
      obtain ⟨row, hrow, rfl⟩ := List.mem_map.mp hr3
      have hmem : row.2 ∈ (wordQuery (toLower text)).1 := by
        rw [← List.enum_map_snd (wordQuery (toLower text)).1]
        exact List.mem_map.mpr ⟨row, hrow, rfl⟩
      exact List.mem_map.mpr ⟨row.2, hmem, hrk2⟩
    · right
      obtain ⟨hpool, hkeep⟩ := List.mem_filter.mp hr3
      obtain ⟨_, ⟨i, hnew⟩, hfind⟩ := hinv2 r hpool
      rw [hrk2] at hfind
      constructor
      · obtain ⟨w, hw, hmem⟩ := List.mem_flatMap.mp (List.mem_of_find?_eq_some hfind)
        exact ⟨w, hw, List.mem_map.mpr ⟨r.note, hmem, hrk2⟩⟩
      · rcases Bool.or_eq_true_iff.mp hkeep with hc | hc
        · left
          apply hcount.2.mp
          rw [← hinv1, ← hrk2]
          exact beq_iff_eq.mp hc
        · right
          refine ⟨r.note, hfind, ?_⟩
          rw [hnew] at hc
          exact (containsWords_iff _ _).mp hc
  · rcases hk with hk | ⟨⟨w, hw, hkw⟩, hcond⟩
    · obtain ⟨n, hn, hnk⟩ := List.mem_map.mp hk
      exact List.mem_map.mpr ⟨n, hphrase n hn, hnk⟩
    · by_cases hfull : k ∈ (wordQuery (toLower text)).1.map noteId
      · obtain ⟨n, hn, hnk⟩ := List.mem_map.mp hfull
        exact List.mem_map.mpr ⟨n, hphrase n hn, hnk⟩
      · have hfm : fullMatchOf toLower (toLower text) (wordQuery (toLower text)).1 k = false := by
          cases hv : fullMatchOf toLower (toLower text) (wordQuery (toLower text)).1 k with
          | false => rfl
          | true => exact absurd ((fullMatchOf_iff _ _ _ _).mp hv) hfull
        obtain ⟨n, hn, hnk⟩ := List.mem_map.mp hkw
        have hnrows : n ∈ (termRows wordQuery (splitSpacesOrQuoted (toLower text))).map Prod.snd := by
          rw [termRows_notes]
          exact List.mem_flatMap.mpr ⟨w, hw, hn⟩
        obtain ⟨row, hrow, hrown⟩ := List.mem_map.mp hnrows
        have hrowk : noteId row.2 = k := by rw [hrown]; exact hnk
        obtain ⟨r, hpool, hrid⟩ := hinv3 row hrow (by rw [hrowk]; exact hfm)
        have hrk : noteId r.note = k := hrid.trans hrowk
        obtain ⟨_, ⟨i, hnew⟩, hfind⟩ := hinv2 r hpool
        rw [hrk] at hfind
        have hkeep : ((pendingOf toLower (toLower text) (wordQuery (toLower text)).1 wordQuery
            (splitSpacesOrQuoted (toLower text))).2 (noteId r.note)
              == (splitSpacesOrQuoted (toLower text)).length || r.containsWords) = true := by
          rcases hcond with hall | ⟨row1, hfind1, htitle⟩
          · apply Bool.or_eq_true_iff.mpr
            left
            apply beq_iff_eq.mpr
            rw [hrk]
            exact (hinv1 k).trans (hcount.2.mpr hall)
          · apply Bool.or_eq_true_iff.mpr
            right
            rw [hfind] at hfind1
            cases hfind1
            rw [hnew]
            exact (containsWords_iff _ _).mpr htitle
        have hmem : r ∈ (collectRecords toLower text wordQuery).1 := by
          rw [hrecs]
          exact List.mem_append_right _ (List.mem_filter.mpr ⟨hpool, hkeep⟩)
        exact List.mem_map.mpr ⟨r.note, hout r hmem, hrk⟩

theorem output_ids_iff_witness :
    (multiWordQuery asciiToLower insertionSortSlice "foo bar".toList storeRanked).2 = none ∧
    (∀ w ∈ splitSpacesOrQuoted (asciiToLower "foo bar".toList),
      ((storeRanked w).1.map noteId).Nodup) ∧
    ("s.md".toList ∈
        (multiWordQuery asciiToLower insertionSortSlice "foo bar".toList storeRanked).1.map noteId ↔
      "s.md".toList ∈ (storeRanked (asciiToLower "foo bar".toList)).1.map noteId ∨
      ((∃ w ∈ splitSpacesOrQuoted (asciiToLower "foo bar".toList),
          "s.md".toList ∈ (storeRanked w).1.map noteId) ∧
        ((∀ w ∈ splitSpacesOrQuoted (asciiToLower "foo bar".toList),
            "s.md".toList ∈ (storeRanked w).1.map noteId) ∨
          ∃ row, ((splitSpacesOrQuoted (asciiToLower "foo bar".toList)).flatMap
              (fun w => (storeRanked w).1)).find? (fun n => noteId n == "s.md".toList) = some row ∧
            ∀ v ∈ stringsSplitSpace (asciiToLower "foo bar".toList),
              stringsContains (noteTitle asciiToLower row) v = true))) ∧
    (∀ n ∈ (storeRanked (asciiToLower "foo bar".toList)).1,
      n ∈ (multiWordQuery asciiToLower insertionSortSlice "foo bar".toList storeRanked).1) :=
  ⟨by decide, by decide,
    output_ids_iff asciiToLower insertionSortSlice insertionSortSlice_ok "foo bar".toList
      storeRanked (by decide) (by decide) "s.md".toList⟩

/-! ## Theorems: tag markers and escaping -/

/-- C11: for a bare tag name `n` that does not end with the marker,
`RemoveTagHashes` returns `n` both for `#n` and for `#n#`. -/
theorem RemoveTagHashes_marked (n : Str) (h : n.getLast? ≠ some '#') :
    RemoveTagHashes ('#' :: n) = some n ∧ RemoveTagHashes ('#' :: (n ++ ['#'])) = some n := by
  constructor
  · simp [RemoveTagHashes, h]
  · simp [RemoveTagHashes]

theorem RemoveTagHashes_marked_witness :
    "habit".toList.getLast? ≠ some '#' ∧
      RemoveTagHashes "#habit".toList = some "habit".toList ∧
      RemoveTagHashes "#habit#".toList = some "habit".toList :=
  ⟨by decide, RemoveTagHashes_marked "habit".toList (by decide)⟩

/-- C12 at its failing inputs: on the empty tag `RemoveTagHashes` panics, and on
the tag `work`, which carries no marker, it returns `ork`. -/
theorem RemoveTagHashes_unmarked :
    RemoveTagHashes [] = none ∧ RemoveTagHashes "work".toList = some "ork".toList := by
  decide

theorem escape_filter (s : Str) :
    (escape s).filter (fun c => c != '\'') = s.filter (fun c => c != '\'') := by
  induction s with
  | nil => rfl
  | cons c cs ih =>
    unfold escape
    by_cases hc : c = '\''
    · simp [hc, ih]
    · simp [hc, ih, List.filter_cons]

theorem length_modifyHead_cons (x : Char) (l : List Str) :
    (l.modifyHead (List.cons x)).map List.length = (l.map List.length).modifyHead (fun k => k + 1) := by
  cases l <;> simp [List.modifyHead]

theorem quoteRunLengths_escape (s : Str) :
    quoteRunLengths (escape s) = (quoteRunLengths s).map (fun k => 2 * k) := by
  induction s with
  | nil => simp [quoteRunLengths, escape]
  | cons c cs ih =>
    unfold escape
    by_cases hc : c = '\''
    · subst hc
      have hq : (fun c : Char => c != '\'') '\'' = false := by decide
      unfold quoteRunLengths at ih ⊢
      simp only [if_pos, List.splitOnP_cons, hq, Bool.false_eq_true, if_false,
        length_modifyHead_cons, ih]
      rcases hsp : cs.splitOnP (fun c => c != '\'') with _ | ⟨hd, tl⟩
      · exact absurd hsp (List.splitOnP_ne_nil _ _)
      · simp [List.modifyHead]
        omega
    · have hq : (fun c : Char => c != '\'') c = true := by simpa using hc
      unfold quoteRunLengths at ih ⊢
      simp only [if_neg hc, List.splitOnP_cons, hq, if_true, List.map_cons, ih]
      simp

theorem collapseQuotes_escape (s : Str) : collapseQuotes (escape s) = s := by
  induction s with
  | nil => rfl
  | cons c cs ih =>
    unfold escape
    by_cases hc : c = '\''
    · subst hc
      simp [collapseQuotes, ih]
    · rw [if_neg hc]
      have : collapseQuotes (c :: escape cs) = c :: collapseQuotes (escape cs) := by
        rw [collapseQuotes]
        intro d hc2 _
        exact hc hc2
      rw [this, ih]

/-- C13: `escape` doubles every single quote and changes nothing else: the
other characters are kept in order, a run of `k` single quotes becomes a run of
`2 * k`, so every run of quotes of the result has even length, and collapsing
the doubled quotes gives the input back. -/
theorem escape_doubles_quotes (s : Str) :
    escape s = s.flatMap (fun c => if c = '\'' then ['\'', '\''] else [c]) ∧
      (escape s).filter (fun c => c != '\'') = s.filter (fun c => c != '\'') ∧
      quoteRunLengths (escape s) = (quoteRunLengths s).map (fun k => 2 * k) ∧
      (∀ k ∈ quoteRunLengths (escape s), k % 2 = 0) ∧
      collapseQuotes (escape s) = s := by
  refine ⟨?_, escape_filter s, quoteRunLengths_escape s, ?_, collapseQuotes_escape s⟩
  · induction s with
    | nil => rfl
    | cons c cs ih =>
      unfold escape
      by_cases hc : c = '\''
      · simp [hc, ih]
      · simp [hc, ih]
  · intro k hk
    rw [quoteRunLengths_escape] at hk
    obtain ⟨m, _, rfl⟩ := List.mem_map.mp hk
    omega

/-- C14 at its failing input: for the text `don't` the closure of
`QueryNotesByText` binds the value `don''t`, with the quote doubled, to the
parameter of the phrase lookup, and the search returns the row the store found
for that value. -/
theorem QueryNotesByText_binds_escaped :
    textWordQuery asciiToLower echoStore (asciiToLower "don't".toList)
        = ([[(NoteIDKey, "don''t".toList), (TitleKey, "don''t".toList)]], none) ∧
      QueryNotesByText asciiToLower insertionSortSlice echoStore "don't".toList
        = ([[(NoteIDKey, "don''t".toList), (TitleKey, "don''t".toList)]], none) ∧
      "don''t".toList ≠ asciiToLower "don't".toList := by
  decide

/-- C15 at its failing input: the tag `#o'brien` is embedded in the fragment as
the literal `'o'brien'`, its single quote not doubled, whereas the text of the
same query is escaped. -/
theorem tagIntersection_not_escaped :
    tagIntersection ["#o'brien".toList] = some
      "SELECT ZUNIQUEIDENTIFIER FROM joined WHERE utflower(TAG_TITLE) = utflower('o'brien')".toList ∧
      (newTagQueryArg "o'brien".toList []).Text = "o''brien".toList := by
  decide

/-! ## Theorems: the title signals -/

theorem occursAt_cons_succ (c : Char) (cs w : Str) (q : Nat) :
    occursAt (c :: cs) w (q + 1) ↔ occursAt cs w q := by
  simp [occursAt]

theorem indexFrom_spec (w : Str) : ∀ (s : Str) (n : Nat),
    (indexFrom w s n = -1 ∧ ∀ q, ¬ occursAt s w q) ∨
      ∃ p : Nat, indexFrom w s n = ((n + p : Nat) : Int) ∧ firstOccursAt s w p := by
  intro s
  induction s with
  | nil =>
    intro n
    unfold indexFrom
    by_cases hw : w = []
    · right
      refine ⟨0, by simp [hw], ⟨?_, fun q hq => absurd hq (Nat.not_lt_zero q)⟩⟩
      simp [occursAt, hw]
    · left
      refine ⟨by simp [hw], fun q hq => ?_⟩
      obtain ⟨hle, hpre⟩ := hq
      have hq0 : q = 0 := by simpa using hle
      subst hq0
      cases w with
      | nil => exact hw rfl
      | cons d ds => simp [List.isPrefixOf] at hpre
  | cons c cs ih =>
    intro n
    unfold indexFrom
    by_cases hpre : w.isPrefixOf (c :: cs) = true
    · right
      refine ⟨0, by simp [hpre], ⟨?_, fun q hq => absurd hq (Nat.not_lt_zero q)⟩⟩
      exact ⟨Nat.zero_le _, by simpa using hpre⟩
    · rw [if_neg hpre]
      have hzero : ¬ occursAt (c :: cs) w 0 := by
        intro h0
        apply hpre
        simpa [occursAt] using h0.2
      rcases ih (n + 1) with ⟨hneg, hno⟩ | ⟨p, hp, hfirst⟩
      · left
        refine ⟨hneg, fun q hq => ?_⟩
        cases q with
        | zero => exact hzero hq
        | succ q => exact hno q ((occursAt_cons_succ c cs w q).mp hq)
      · right
        refine ⟨p + 1, ?_, ?_, ?_⟩
        · rw [hp]
          congr 1
          omega
        · exact (occursAt_cons_succ c cs w p).mpr hfirst.1
        · intro q hq hocc
          cases q with
          | zero => exact hzero hocc
          | succ q =>
            exact hfirst.2 q (by omega) ((occursAt_cons_succ c cs w q).mp hocc)

theorem stringsIndex_spec (text w : Str) :
    (stringsIndex text w = -1 ∧ ∀ q, ¬ occursAt text w q) ∨
      ∃ p : Nat, stringsIndex text w = (p : Int) ∧ firstOccursAt text w p := by
  rcases indexFrom_spec w text 0 with h | ⟨p, hp, hfirst⟩
  · exact Or.inl h
  · exact Or.inr ⟨p, by simpa [stringsIndex] using hp, hfirst⟩

theorem firstOccursAt_unique (text w : Str) (p q : Nat) (hp : firstOccursAt text w p)
    (hq : firstOccursAt text w q) : p = q := by
  rcases Nat.lt_trichotomy p q with h | h | h
  · exact absurd hp.1 (hq.2 p h)
  · exact h
  · exact absurd hq.1 (hp.2 q h)

theorem containsOrderedWordsFrom_iff (text : Str) (words : List Str) :
    ∀ n : Nat, containsOrderedWordsFrom text (n : Int) words = true ↔
      ∃ ps : List Nat, List.Forall₂ (firstOccursAt text) words ps ∧
        List.Chain (fun a b => a ≤ b) n ps := by
  induction words with
  | nil =>
    intro n
    simp [containsOrderedWordsFrom]
  | cons w ws ih =>
    intro n
    unfold containsOrderedWordsFrom
    simp only
    rcases stringsIndex_spec text w with ⟨hneg, hno⟩ | ⟨p, hp, hfirst⟩
    · rw [hneg]
      simp only [true_or, if_true, Bool.false_eq_true, false_iff]
      rintro ⟨ps, hall, _⟩
      rcases List.forall₂_cons_left_iff.mp hall with ⟨q, qs, hq, _, _⟩
      exact hno q hq.1
    · rw [hp]
      by_cases hlt : p < n
      · have hcond : ((p : Int) = -1 ∨ (p : Int) < (n : Int)) := Or.inr (by exact_mod_cast hlt)
        rw [if_pos hcond]
        simp only [Bool.false_eq_true, false_iff]
        rintro ⟨ps, hall, hchain⟩
        rcases List.forall₂_cons_left_iff.mp hall with ⟨q, qs, hq, _, rfl⟩
        have hqp : q = p := firstOccursAt_unique text w q p hq hfirst
        rw [List.chain_cons] at hchain
        omega
      · have hcond : ¬ ((p : Int) = -1 ∨ (p : Int) < (n : Int)) := by
          intro h
          rcases h with h | h
          · omega
          · exact hlt (by exact_mod_cast h)
        rw [if_neg hcond, ih p]
        constructor
        · rintro ⟨ps, hall, hchain⟩
          exact ⟨p :: ps, List.Forall₂.cons hfirst hall,
            List.chain_cons.mpr ⟨by omega, hchain⟩⟩
        · rintro ⟨ps, hall, hchain⟩
          rcases List.forall₂_cons_left_iff.mp hall with ⟨q, qs, hq, hqs, rfl⟩
          have hqp : q = p := firstOccursAt_unique text w q p hq hfirst
          subst hqp
          exact ⟨qs, hqs, (List.chain_cons.mp hchain).2⟩

/-- C16, as amended: `containsOrderedWords` is true exactly when every word
occurs in the text and the positions of the first occurrences of the words,
taken in query order, are non-decreasing. -/
theorem containsOrderedWords_iff_first_occurrences (text : Str) (words : List Str) :
    containsOrderedWords text words = true ↔
      ∃ ps : List Nat, List.Forall₂ (firstOccursAt text) words ps ∧
        List.Chain' (fun a b => a ≤ b) ps := by
  unfold containsOrderedWords
  have h := containsOrderedWordsFrom_iff text words 0
  simp only [Nat.cast_zero] at h
  rw [h]
  constructor
  · rintro ⟨ps, hall, hchain⟩
    refine ⟨ps, hall, ?_⟩
    cases ps with
    | nil => exact List.chain'_nil
    | cons p ps => exact (List.chain_cons.mp hchain).2
  · rintro ⟨ps, hall, hchain⟩
    refine ⟨ps, hall, ?_⟩
    cases ps with
    | nil => exact List.Chain.nil
    | cons p ps => exact List.chain_cons.mpr ⟨Nat.zero_le p, hchain⟩

/-- C16 fails as stated: in the text `b a b` the words `a`, `b` occur in query
order at the positions 2 and 4, yet `containsOrderedWords` is false, because the
first `b` stands before the first `a`. -/
theorem containsOrderedWords_misses_later_occurrence :
    containsOrderedWords "b a b".toList ["a".toList, "b".toList] = false ∧
      ∃ ps : List Nat, List.Forall₂ (occursAt "b a b".toList) ["a".toList, "b".toList] ps ∧
        List.Chain' (fun a b => a ≤ b) ps := by
  refine ⟨by decide, [2, 4], ?_, by simp⟩
  exact List.Forall₂.cons ⟨by decide, by decide⟩
    (List.Forall₂.cons ⟨by decide, by decide⟩ List.Forall₂.nil)

/-- C17 at its failing input: for the query `"night owl" project` the title
`night owl project` contains every term of the tokenizer, yet the any-order
signal of `NewNoteRecord` is false, because it is computed from the pieces of
the text between spaces, quotes included. -/
theorem containsWords_signal_ignores_quoting :
    (NewNoteRecord asciiToLower 0 noteNightOwl
        (asciiToLower "\"night owl\" project".toList)).containsWords = false ∧
      splitSpacesOrQuoted (asciiToLower "\"night owl\" project".toList)
        = ["night owl".toList, "project".toList] ∧
      (∀ t ∈ splitSpacesOrQuoted (asciiToLower "\"night owl\" project".toList),
        stringsContains (noteTitle asciiToLower noteNightOwl) t = true) ∧
      stringsSplitSpace (asciiToLower "\"night owl\" project".toList)
        = ["\"night".toList, "owl\"".toList, "project".toList] := by
  decide

/-! ## Theorems: determinism of the ranking -/

theorem recordLess_tie_iff (a b : noteRecord) :
    (recordLess a b = false ∧ recordLess b a = false) ↔
      (a.contains = b.contains ∧ a.containsOrderedWords = b.containsOrderedWords ∧
        a.containsWords = b.containsWords ∧ a.originalIndex = b.originalIndex) := by
  rcases a with ⟨na, ca, oa, wa, ia⟩
  rcases b with ⟨nb, cb, ob, wb, ib⟩
  cases ca <;> cases cb <;> cases oa <;> cases ob <;> cases wa <;> cases wb <;>
    simp [recordLess] <;> omega

theorem phraseRecord_index {ε : Type} (toLower : Str → Str) (text : Str)
    (wordQuery : Str → List Note × Option ε) (i : Nat) (r : noteRecord)
    (hi : i < (wordQuery (toLower text)).1.length)
    (hr : (collectRecords toLower text wordQuery).1[i]? = some r) : r.originalIndex = i := by
  by_cases h : (collectRecords toLower text wordQuery).2 = none
  · rw [(collectRecords_ok toLower text wordQuery h).2,
      List.getElem?_append_left (by simpa using hi), List.getElem?_map, List.getElem?_enum] at hr
    cases hn : (wordQuery (toLower text)).1[i]? with
    | none => rw [hn] at hr; cases hr
    | some n =>
      rw [hn] at hr
      simp only [Option.map_some'] at hr
      cases hr
      rfl
  · rw [collectRecords_err toLower text wordQuery h] at hr
    cases hr

/-- C18, as amended: the comparison leaves two records unordered exactly when
they agree in the three signals and in the batch position; so it strictly
orders any two records of the working sequence that come from different rows of
the phrase lookup's batch. -/
theorem comparison_orders_phrase_batch {ε : Type} (toLower : Str → Str) (text : Str)
    (wordQuery : Str → List Note × Option ε) (i j : Nat) (ri rj : noteRecord)
    (hi : i < (wordQuery (toLower text)).1.length)
    (hj : j < (wordQuery (toLower text)).1.length) (hij : i ≠ j)
    (hri : (collectRecords toLower text wordQuery).1[i]? = some ri)
    (hrj : (collectRecords toLower text wordQuery).1[j]? = some rj) :
    (recordLess ri rj = true ∨ recordLess rj ri = true) ∧
      ∀ a b : noteRecord, (recordLess a b = false ∧ recordLess b a = false) ↔
        (a.contains = b.contains ∧ a.containsOrderedWords = b.containsOrderedWords ∧
          a.containsWords = b.containsWords ∧ a.originalIndex = b.originalIndex) := by
  refine ⟨?_, recordLess_tie_iff⟩
  have h1 := phraseRecord_index toLower text wordQuery i ri hi hri
  have h2 := phraseRecord_index toLower text wordQuery j rj hj hrj
  by_contra hcon
  have htie : recordLess ri rj = false ∧ recordLess rj ri = false := by
    constructor
    · cases h : recordLess ri rj with
      | false => rfl
      | true => exact absurd (Or.inl h) hcon
    · cases h : recordLess rj ri with
      | false => rfl
      | true => exact absurd (Or.inr h) hcon
  have := ((recordLess_tie_iff ri rj).mp htie).2.2.2
  omega

theorem comparison_orders_phrase_batch_witness :
    0 < (storeRanked (asciiToLower "foo bar".toList)).1.length ∧
      1 < (storeRanked (asciiToLower "foo bar".toList)).1.length ∧ 0 ≠ 1 ∧
      (collectRecords asciiToLower "foo bar".toList storeRanked).1[0]?
        = some (NewNoteRecord asciiToLower 0 noteBody (asciiToLower "foo bar".toList)) ∧
      (collectRecords asciiToLower "foo bar".toList storeRanked).1[1]?
        = some (NewNoteRecord asciiToLower 1 notePhrase (asciiToLower "foo bar".toList)) ∧
      (recordLess (NewNoteRecord asciiToLower 0 noteBody (asciiToLower "foo bar".toList))
          (NewNoteRecord asciiToLower 1 notePhrase (asciiToLower "foo bar".toList)) = true ∨
        recordLess (NewNoteRecord asciiToLower 1 notePhrase (asciiToLower "foo bar".toList))
          (NewNoteRecord asciiToLower 0 noteBody (asciiToLower "foo bar".toList)) = true) :=
  ⟨by decide, by decide, by decide, by decide, by decide,
    (comparison_orders_phrase_batch asciiToLower "foo bar".toList storeRanked 0 1 _ _
      (by decide) (by decide) (by decide) (by decide) (by decide)).1⟩

/-- C18 fails as stated: for the query `foo bar` on `storeTie` the working
sequence holds two different records, one from the phrase batch and one from a
term batch, both with no signal and batch position 0; neither is less than the
other, and both orders of the two are sorted. -/
theorem comparison_ties_across_batches :
    (collectRecords asciiToLower "foo bar".toList storeTie).1
        = [NewNoteRecord asciiToLower 0 noteBody "foo bar".toList,
            NewNoteRecord asciiToLower 0 noteOther "foo bar".toList] ∧
      NewNoteRecord asciiToLower 0 noteBody "foo bar".toList
        ≠ NewNoteRecord asciiToLower 0 noteOther "foo bar".toList ∧
      recordLess (NewNoteRecord asciiToLower 0 noteBody "foo bar".toList)
        (NewNoteRecord asciiToLower 0 noteOther "foo bar".toList) = false ∧
      recordLess (NewNoteRecord asciiToLower 0 noteOther "foo bar".toList)
        (NewNoteRecord asciiToLower 0 noteBody "foo bar".toList) = false ∧
      [NewNoteRecord asciiToLower 0 noteBody "foo bar".toList,
          NewNoteRecord asciiToLower 0 noteOther "foo bar".toList].Pairwise
        (fun a b => recordLess b a = false) ∧
      [NewNoteRecord asciiToLower 0 noteOther "foo bar".toList,
          NewNoteRecord asciiToLower 0 noteBody "foo bar".toList].Pairwise
        (fun a b => recordLess b a = false) := by
  refine ⟨by decide, by decide, by decide, by decide, ?_, ?_⟩
  · exact List.pairwise_pair.mpr (by decide)
  · exact List.pairwise_pair.mpr (by decide)

/-! ## Theorems: the empty query -/

theorem stringsContains_nil (text : Str) : stringsContains text [] = true := by
  cases text <;> simp [stringsContains, stringsIndex, indexFrom]

theorem NewNoteRecord_nil (toLower : Str → Str) (i : Nat) (note : Note) :
    NewNoteRecord toLower i note [] = ⟨note, true, true, true, i⟩ := by
  have hidx : ∀ t : Str, stringsIndex t [] = 0 := by
    intro t
    cases t <;> simp [stringsIndex, indexFrom]
  simp [NewNoteRecord, stringsContains_nil, containsOrderedWords, containsOrderedWordsFrom,
    containsWords, stringsSplitSpace, hidx]

theorem enum_pairwise_fst (notes : List Note) :
    notes.enum.Pairwise (fun r1 r2 => r1.1 < r2.1) := by
  rw [List.pairwise_iff_getElem]
  intro i j hi hj hij
  simpa using hij

theorem sorted_eq_of_all_signals (toLower : Str → Str) (notes : List Note)
    (sorted : List noteRecord)
    (hperm : sorted.Perm (notes.enum.map (fun row => NewNoteRecord toLower row.1 row.2 [])))
    (hpair : sorted.Pairwise (fun a b => recordLess b a = false)) :
    sorted = notes.enum.map (fun row => NewNoteRecord toLower row.1 row.2 []) := by
  refine List.Perm.eq_of_sorted ?_ hpair ?_ hperm
  · intro a b ha hb hab hba
    obtain ⟨ra, hra, rfl⟩ := List.mem_map.mp (hperm.mem_iff.mp ha)
    obtain ⟨rb, hrb, rfl⟩ := List.mem_map.mp hb
    simp only [NewNoteRecord_nil] at hab hba ⊢
    have hidx : ra.1 = rb.1 := by
      simp [recordLess] at hab hba
      omega
    have h1 := List.mem_enum_iff_getElem?.mp hra
    have h2 := List.mem_enum_iff_getElem?.mp hrb
    rw [hidx, h2] at h1
    have h3 : rb.2 = ra.2 := by simpa using h1
    rw [hidx, h3]
  · rw [List.pairwise_map]
    refine (enum_pairwise_fst notes).imp ?_
    intro r1 r2 hlt
    simp only [NewNoteRecord_nil]
    simp [recordLess]
    omega

/-- C19: for the empty query text there is no term, so only the phrase lookup
counts, and when it succeeds `multiWordQuery` returns exactly its batch, the
same rows in the same order. -/
theorem multiWordQuery_empty_text {ε : Type} (toLower : Str → Str)
    (sortSlice : (noteRecord → noteRecord → Bool) → List noteRecord → List noteRecord)
    (hsort : SortSliceOK sortSlice) (hlower : toLower [] = [])
    (wordQuery : Str → List Note × Option ε) (hok : (wordQuery []).2 = none) :
    multiWordQuery toLower sortSlice [] wordQuery = ((wordQuery []).1, none) ∧
      splitSpacesOrQuoted (toLower []) = [] ∧
      ∀ other : Str → List Note × Option ε, other [] = wordQuery [] →
        multiWordQuery toLower sortSlice [] other = ((wordQuery []).1, none) := by
  have hwords : splitSpacesOrQuoted (toLower []) = [] := by rw [hlower]; rfl
  have key : ∀ wq : Str → List Note × Option ε, (wq []).2 = none →
      multiWordQuery toLower sortSlice [] wq = ((wq []).1, none) := by
    intro wq hwq
    have hsnd : (collectRecords toLower [] wq).2 = none := by
      rw [collectRecords_snd, hlower]
      simp [List.find?_cons, hwq, show splitSpacesOrQuoted [] = [] from rfl]
    have hrecs := (collectRecords_ok toLower [] wq hsnd).2
    rw [hlower] at hrecs
    have hpend : (pendingOf toLower [] (wq []).1 wq (splitSpacesOrQuoted [])).1 = [] := rfl
    rw [hpend, List.filter_nil, List.append_nil] at hrecs
    obtain ⟨hperm, hpair⟩ := hsort (collectRecords toLower [] wq).1
    rw [hrecs] at hperm hpair
    have hsorted := sorted_eq_of_all_signals toLower (wq []).1 _ hperm hpair
    apply Prod.ext
    · rw [multiWordQuery_fst_ok toLower sortSlice [] wq hsnd, hrecs, hsorted]
      exact phraseRecords_ids toLower [] (wq []).1
    · rw [multiWordQuery_snd]
      exact hsnd
  refine ⟨key wordQuery hok, hwords, fun other hother => ?_⟩
  rw [← hother]
  exact key other (by rw [hother]; exact hok)

theorem multiWordQuery_empty_text_witness :
    asciiToLower [] = [] ∧ (storeAll []).2 = none ∧
      (storeAll []).1 = [noteWords, noteBody, noteSwap, notePhrase] ∧
      multiWordQuery asciiToLower insertionSortSlice [] storeAll
        = ([noteWords, noteBody, noteSwap, notePhrase], none) ∧
      splitSpacesOrQuoted (asciiToLower []) = [] ∧
      multiWordQuery asciiToLower insertionSortSlice [] (fun _ => (storeAll []))
        = ([noteWords, noteBody, noteSwap, notePhrase], none) :=
  ⟨by decide, by decide, by decide,
    (multiWordQuery_empty_text asciiToLower insertionSortSlice insertionSortSlice_ok (by decide)
      storeAll (by decide)).1,
    (multiWordQuery_empty_text asciiToLower insertionSortSlice insertionSortSlice_ok (by decide)
      storeAll (by decide)).2.1,
    (multiWordQuery_empty_text asciiToLower insertionSortSlice insertionSortSlice_ok (by decide)
      storeAll (by decide)).2.2 (fun _ => (storeAll [])) rfl⟩

/-! ## Theorems: the comparison as an order -/

theorem recordLess_trans (a b c : noteRecord) (hab : recordLess a b = true)
    (hbc : recordLess b c = true) : recordLess a c = true := by
  rcases a with ⟨na, ca, oa, wa, ia⟩
  rcases b with ⟨nb, cb, ob, wb, ib⟩
  rcases c with ⟨nc, cc, oc, wc, ic⟩
  revert hab hbc
  cases ca <;> cases cb <;> cases cc <;> cases oa <;> cases ob <;> cases oc <;>
    cases wa <;> cases wb <;> cases wc <;> simp [recordLess] <;> omega

theorem recordLess_iff_sortKey (a b : noteRecord) :
    recordLess a b = true ↔ sortKey a < sortKey b := by
  rcases a with ⟨na, ca, oa, wa, ia⟩
  rcases b with ⟨nb, cb, ob, wb, ib⟩
  simp only [sortKey, Prod.Lex.lt_iff]
  cases ca <;> cases cb <;> cases oa <;> cases ob <;> cases wa <;> cases wb <;>
    simp [recordLess]

/-- C20: the comparison handed to `sort.Slice` is a strict weak ordering
(irreflexive, transitive, with transitive incomparability), it is the
lexicographic order on the negated signals followed by the batch position, and
the insertion sort run with it leaves no record before one that is less. -/
theorem recordLess_strict_weak_order :
    (∀ a : noteRecord, recordLess a a = false) ∧
      (∀ a b c : noteRecord, recordLess a b = true → recordLess b c = true →
        recordLess a c = true) ∧
      (∀ a b c : noteRecord, (recordLess a b = false ∧ recordLess b a = false) →
        (recordLess b c = false ∧ recordLess c b = false) →
        (recordLess a c = false ∧ recordLess c a = false)) ∧
      (∀ a b : noteRecord, recordLess a b = true ↔ sortKey a < sortKey b) ∧
      (∀ records : List noteRecord,
        (insertionSortSlice recordLess records).Perm records ∧
        (insertionSortSlice recordLess records).Pairwise
          (fun earlier later => recordLess later earlier = false)) := by
  refine ⟨recordLess_irrefl, recordLess_trans, ?_, recordLess_iff_sortKey, insertionSortSlice_ok⟩
  intro a b c hab hbc
  exact ⟨recordLess_negTrans a b c hab.1 hbc.1, recordLess_negTrans c b a hbc.2 hab.2⟩

end AlfredObsidian
